import Mathlib

/-!
Verification of the TileDB `ArraySchema` kernel
(`core/src/array/array_schema.cc`).

The development shallowly embeds the schema value, its builder
(`ArraySchema::init` and the individual setters), the geometry kernel
(cell/tile positions, tile-coordinate enumeration, overlap
classification) and the binary codec (`serialize` / `deserialize`).

Modelling conventions:

* Machine integers (`int`, `int64_t`, `size_t`) are modelled as `Int` or
  `Nat`; two's-complement wrap is applied explicitly (`% 2 ^ 32`,
  `% 2 ^ 64`) in the byte codec, where overflow is observable.  C `/` on
  signed integers is `Int.tdiv` (truncation toward zero).
* Raw `void*` blobs (`domain_`, `tile_extents_`) are byte lists
  (`List Nat`, one entry per byte); typed views decode them
  little-endian, exactly as the pointer casts in the source reinterpret
  the blob for the coordinate type.
* `std::string` values are byte lists; the builder converts its string
  inputs with `strBytes`.
* Failure (error return codes, exceptions from `std::vector::resize`
  with a negative size, and assertion aborts) is modelled with
  `Option`: `none` means the operation does not complete normally.
* Enum-typed fields that the deserializer fills by `static_cast` from an
  arbitrary byte (`tile_order_`, `cell_order_`, `compression_`) are kept
  as raw `Nat` codes, because the source really can store any byte
  there.  `types_` holds `std::type_info` pointers which cannot hold
  junk; an unrecognized type byte leaves the slot as the value-initialized
  null pointer, modelled as `none`.
* Floating-point coordinate arithmetic (`float` / `double` domain
  comparisons, tile-domain ceilings and Hilbert bit counts for float
  coordinate types) is outside the embedding; those branches are mapped
  to fixed results and are documented where they occur.  Every claim
  below is about integer coordinate types or is independent of the
  floating-point branches.
* Constants from `constants.h` and helpers from `utils.cc` (files not
  part of this snapshot) are modelled from the spec and marked as such.
-/

/-- Scalar type descriptors: the closed set of `std::type_info` pointers the
schema can hold (`char`, `int`, `int64_t`, `float`, `double`). -/
inductive TileDBType where
  | tChar
  | tInt32
  | tInt64
  | tFloat32
  | tFloat64
deriving DecidableEq, Repr

/-- `sizeof` of each scalar type. -/
def scalarWidth : TileDBType → Nat
  | .tChar => 1
  | .tInt32 => 4
  | .tInt64 => 8
  | .tFloat32 => 4
  | .tFloat64 => 8

/-- Stable wire codes for the scalar types (spec section 6:
CHAR=0, INT32=1, INT64=2, FLOAT32=3, FLOAT64=4). -/
def typeCode : TileDBType → Nat
  | .tChar => 0
  | .tInt32 => 1
  | .tInt64 => 2
  | .tFloat32 => 3
  | .tFloat64 => 4

/-- Inverse of `typeCode`: decoding an unknown byte leaves the
`std::type_info` slot as the value-initialized null pointer (`none`). -/
def typeOfCode (b : Nat) : Option TileDBType :=
  if b = 0 then some .tChar
  else if b = 1 then some .tInt32
  else if b = 2 then some .tInt64
  else if b = 3 then some .tFloat32
  else if b = 4 then some .tFloat64
  else none

/-- Modelled from the spec: stable byte code of cell order row-major
(`constants.h` is not in the snapshot; exact values are
implementation-chosen but fixed). -/
def coRowMajor : Nat := 1

/-- Modelled from the spec: stable byte code of cell order column-major. -/
def coColMajor : Nat := 2

/-- Modelled from the spec: stable byte code of cell order Hilbert. -/
def coHilbert : Nat := 3

/-- Modelled from the spec: stable byte code of tile order row-major. -/
def toRowMajor : Nat := 1

/-- Modelled from the spec: stable byte code of tile order column-major. -/
def toColMajor : Nat := 2

/-- Modelled from the spec: stable byte code of tile order Hilbert. -/
def toHilbert : Nat := 3

/-- Modelled from the spec: stable byte code of compressor NONE. -/
def cmpNone : Nat := 0

/-- Modelled from the spec: stable byte code of compressor GZIP. -/
def cmpGzip : Nat := 1

/-- Modelled from the spec: `TILEDB_AS_VAR_SIZE`, the reserved negative
sentinel marking a variable-sized attribute in `val_num_` and
`cell_sizes_`. -/
def varSizeSentinel : Int := -1

/-- Modelled from the spec: `TILEDB_CELL_VAR_OFFSET_SIZE`, the size of a
cell offset into a variable-length payload (a `size_t`, 8 bytes). -/
def cellVarOffsetSize : Nat := 8

/-- Modelled from the spec: `TILEDB_AS_CAPACITY`, the default capacity used
when the input capacity is not positive.  The exact value is immaterial to
every claim. -/
def defaultCapacity : Int := 10000

/-- Modelled from the spec: `TILEDB_AS_CONSOLIDATION_STEP` default. -/
def defaultConsolidationStep : Int := 1

/-- Modelled from the spec: `TILEDB_AS_CELL_ORDER`, the default cell order
(row-major) used when the input cell order is null. -/
def defaultCellOrderCode : Nat := coRowMajor

/-- Modelled from the spec: `TILEDB_AS_TILE_ORDER`, the default tile order
(row-major) used when the input tile order is null. -/
def defaultTileOrderCode : Nat := toRowMajor

/-- ASCII bytes of a Lean string (all strings appearing in the schema and
in the claims are ASCII, where UTF-8 bytes and code points coincide). -/
def strBytes (s : String) : List Nat := s.data.map Char.toNat

/-- Modelled from the spec: `TILEDB_COORDS_NAME`, the reserved synthetic
attribute name `__coords` appended after the user attributes. -/
def tiledbCoordsName : List Nat := strBytes "__coords"

/- ## Little-endian byte codec for machine integers -/

/-- Little-endian byte encoding of a natural number into `w` bytes
(the `memcpy` of a `w`-byte integer object). -/
def toBytesLE : Nat → Nat → List Nat
  | 0, _ => []
  | w + 1, v => v % 256 :: toBytesLE w (v / 256)

/-- Little-endian byte decoding. -/
def decBytesLE : List Nat → Nat
  | [] => 0
  | b :: bs => b + 256 * decBytesLE bs

/-- Encode a signed machine integer of width `w` bytes, two's complement. -/
def encInt (w : Nat) (n : Int) : List Nat :=
  toBytesLE w (n % (2 ^ (8 * w))).toNat

/-- Decode bytes as a signed two's-complement little-endian integer, as
`memcpy` into a signed integer object of the same width reads them. -/
def decIntLE (bs : List Nat) : Int :=
  let u := decBytesLE bs
  let m := 2 ^ (8 * bs.length)
  if 2 * u < m then (u : Int) else (u : Int) - (m : Int)

/- ## The schema value -/

/-- The `ArraySchema` aggregate: primary fields plus the derived caches the
source stores alongside them.  Blob fields keep the raw byte
representation of the source; names are byte strings. -/
structure ArraySchema where
  arrayName : List Nat
  attributeNum : Nat
  attributes : List (List Nat)
  capacity : Int
  cellNumPerTile : Int
  cellOrder : Nat
  cellSizes : List Int
  compression : List Nat
  consolidationStep : Int
  dense : Bool
  dimNum : Nat
  dimensions : List (List Nat)
  domain : List Nat
  keyValue : Bool
  tileDomain : Option (List Int)
  tileExtents : Option (List Nat)
  tileOrder : Nat
  tileSizes : List Int
  typeSizes : List Nat
  types : List (Option TileDBType)
  valNum : List Int
  varAttributeNum : Nat
  hilbertBits : Int
deriving DecidableEq, Repr

/-- `ArraySchema::ArraySchema()`: the constructor sets
`cell_num_per_tile_ = -1` and nulls the owned pointers; the remaining
members are value-unspecified until the setters run and are modelled by
fixed defaults. -/
def emptySchema : ArraySchema where
  arrayName := []
  attributeNum := 0
  attributes := []
  capacity := 0
  cellNumPerTile := -1
  cellOrder := 0
  cellSizes := []
  compression := []
  consolidationStep := 0
  dense := false
  dimNum := 0
  dimensions := []
  domain := []
  keyValue := false
  tileDomain := none
  tileExtents := none
  tileOrder := 0
  tileSizes := []
  typeSizes := []
  types := []
  valNum := []
  varAttributeNum := 0
  hilbertBits := 0

/-- `ArraySchema::coords_size()`: `cell_sizes_[attribute_num_]`. -/
def ArraySchema.coordsSize (s : ArraySchema) : Int :=
  s.cellSizes.getD s.attributeNum 0

/-- The coordinate type slot `types_[attribute_num_]`. -/
def ArraySchema.coordsType (s : ArraySchema) : Option TileDBType :=
  s.types.getD s.attributeNum none

/-- One chunking step per unit of fuel; the fuel (the blob length at the
top call) bounds the number of scalars so the recursion is structural. -/
def decodeScalarsAux (w : Nat) : Nat → List Nat → List Int
  | 0, _ => []
  | _ + 1, [] => []
  | fuel + 1, b :: bs =>
      decIntLE (List.take w (b :: bs)) :: decodeScalarsAux w fuel (List.drop (w - 1) bs)

/-- Decode a blob into scalars of byte width `w` (little-endian signed),
as the source's casts `(const T*) blob` reinterpret it. -/
def decodeScalars (w : Nat) (bs : List Nat) : List Int :=
  decodeScalarsAux w bs.length bs

/-- The typed view of `domain_` for an integer coordinate type; `none` for
float coordinate types (their geometry is floating point, not modelled)
and for junk type slots. -/
def ArraySchema.domainInt (s : ArraySchema) : Option (List Int) :=
  match s.coordsType with
  | some .tInt32 => some (decodeScalars 4 s.domain)
  | some .tInt64 => some (decodeScalars 8 s.domain)
  | _ => none

/-- The typed view of `tile_extents_` for an integer coordinate type. -/
def ArraySchema.tileExtentsInt (s : ArraySchema) : Option (List Int) :=
  match s.tileExtents with
  | none => none
  | some bs =>
    match s.coordsType with
    | some .tInt32 => some (decodeScalars 4 bs)
    | some .tInt64 => some (decodeScalars 8 bs)
    | _ => none

/- ## Derived-field computation (shared by `init` and `deserialize`) -/

/-- `ArraySchema::compute_type_size(i)`: `sizeof` dispatch over the type
slot.  For a null slot the source falls off the end of the if-chain
(value undefined); that case is mapped to `0` and is unreachable for
schemas built by `init`. -/
def computeTypeSize (t : Option TileDBType) : Nat :=
  match t with
  | some tt => scalarWidth tt
  | none => 0

/-- `ArraySchema::compute_cell_size(i)`: the var-size sentinel for a
variable-sized attribute, `val_num * sizeof(type)` for a fixed attribute,
`dim_num * sizeof(coord type)` for the coordinates slot. -/
def computeCellSize (types : List (Option TileDBType)) (valNum : List Int)
    (attributeNum dimNum : Nat) (i : Nat) : Int :=
  if i < attributeNum ∧ valNum.getD i 0 = varSizeSentinel then varSizeSentinel
  else if i < attributeNum then
    valNum.getD i 0 * (computeTypeSize (types.getD i none) : Int)
  else (dimNum : Int) * (computeTypeSize (types.getD i none) : Int)

/-- The loop `cell_sizes_[i] = compute_cell_size(i)` for `0 ≤ i ≤
attribute_num`. -/
def computeCellSizes (types : List (Option TileDBType)) (valNum : List Int)
    (attributeNum dimNum : Nat) : List Int :=
  (List.range (attributeNum + 1)).map (computeCellSize types valNum attributeNum dimNum)

/-- `ArraySchema::compute_cell_num_per_tile()` applied to a freshly
constructed object (`cell_num_per_tile_ = -1`), as both `init` and
`deserialize` do.  Dense dispatches on the coordinate type (`assert(0)`
for non-integer coordinates, modelled as failure) and multiplies the tile
extents; a dense schema without extents keeps the constructor's `-1`
(the templated function returns early).  Sparse with regular tiles keeps
`-1`; sparse with irregular tiles uses the capacity. -/
def computeCellNumPerTileFresh (dense : Bool) (coordsType : Option TileDBType)
    (tileExtents : Option (List Nat)) (capacity : Int) : Option Int :=
  if dense then
    match coordsType with
    | some .tInt32 =>
        match tileExtents with
        | none => some (-1)
        | some bs => some (decodeScalars 4 bs).prod
    | some .tInt64 =>
        match tileExtents with
        | none => some (-1)
        | some bs => some (decodeScalars 8 bs).prod
    | _ => none
  else
    match tileExtents with
    | some _ => some (-1)
    | none => some capacity

/-- `ArraySchema::compute_tile_sizes()`: `cell_num_per_tile * VAR_OFFSET`
for variable-sized attributes, `cell_num_per_tile * cell_size` otherwise,
for `0 ≤ i ≤ attribute_num`. -/
def computeTileSizes (cellSizes : List Int) (cellNumPerTile : Int)
    (attributeNum : Nat) : List Int :=
  (List.range (attributeNum + 1)).map fun i =>
    if cellSizes.getD i 0 = varSizeSentinel then cellNumPerTile * (cellVarOffsetSize : Int)
    else cellNumPerTile * cellSizes.getD i 0

/-- Ceiling division for a positive divisor, the exact value of the
source's `ceil(double(a) / b)` whenever the doubles are exact
(magnitudes below `2 ^ 53`; larger magnitudes would round and are not
modelled). -/
def ceilDivInt (a b : Int) : Int := -((-a) / b)

/-- The per-dimension loop of `compute_tile_domain`:
`tile_num = ceil((hi - lo + 1) / extent)`, producing the flat blob
`[0, tile_num_0 - 1, 0, tile_num_1 - 1, ...]`. -/
def tileDomainAux : List Int → List Int → List Int
  | lo :: hi :: ds, e :: es => 0 :: (ceilDivInt (hi - lo + 1) e - 1) :: tileDomainAux ds es
  | _, _ => []

/-- `ArraySchema::compute_tile_domain()`: returns early (tile domain stays
null) when there are no tile extents; otherwise dispatches on the
coordinate type.  The float branches compute with doubles and are not
modelled (`none`). -/
def computeTileDomain (coordsType : Option TileDBType) (domain : List Nat)
    (tileExtents : Option (List Nat)) : Option (List Int) :=
  match tileExtents with
  | none => none
  | some bs =>
    match coordsType with
    | some .tInt32 => some (tileDomainAux (decodeScalars 4 domain) (decodeScalars 4 bs))
    | some .tInt64 => some (tileDomainAux (decodeScalars 8 domain) (decodeScalars 8 bs))
    | _ => none

/-- The loop of `compute_hilbert_bits`: the largest `hi - lo + 1` over the
dimensions, starting from 0. -/
def maxDomainRange : List Int → Int
  | lo :: hi :: ds => max (maxDomainRange ds) (hi - lo + 1)
  | _ => 0

/-- Executable ceiling log2: the least `k` with `m ≤ 2 ^ k`, the value of
`ceil(log2(m))` for `1 ≤ m` (ranges above `2 ^ 63` do not occur for
`int64_t` domains). -/
def ceilLog2 (m : Nat) : Nat :=
  (((List.range 64).filter fun k => decide (m ≤ 2 ^ k)).headD 64)

/-- `ArraySchema::init_hilbert_curve()` and
`compute_hilbert_bits<T>()`: only a Hilbert cell order computes the bit
count, `ceil(log2(int64_t(max_range + 0.5)))`, which for an integer
`max_range ≥ 1` is `ceilLog2 max_range`.  Float coordinate types compute
with floats (not modelled, mapped to 0).  For other cell orders the
source leaves `hilbert_bits_` uninitialized and never reads it; the
model fixes it to 0. -/
def computeHilbertBits (cellOrder : Nat) (coordsType : Option TileDBType)
    (domain : List Nat) : Int :=
  if cellOrder = coHilbert then
    match coordsType with
    | some .tInt32 => (ceilLog2 (maxDomainRange (decodeScalars 4 domain)).toNat : Int)
    | some .tInt64 => (ceilLog2 (maxDomainRange (decodeScalars 8 domain)).toNat : Int)
    | _ => 0
  else 0

/- ## Geometry kernel -/

/-- Dot product `pos += coords[i] * offsets[i]`. -/
def dotL (xs ys : List Int) : Int := (List.zipWith (· * ·) xs ys).sum

/-- The offsets vector of `get_cell_pos_row`: built as `[1]`, extended with
`extents[i+1] * back` for `i = dim_num-2 .. 0` and reversed, so entry `i`
is the product of the extents after position `i`. -/
def cellOffsetsRow : List Int → List Int
  | [] => []
  | _ :: es => es.prod :: cellOffsetsRow es

/-- The offsets vector of `get_cell_pos_col`: `[1]` extended with
`extents[i-1] * back` for `i = 1 .. dim_num-1`, so entry `i` is the
product of the extents before position `i`. -/
def cellOffsetsCol : List Int → List Int
  | [] => []
  | e :: es => 1 :: (cellOffsetsCol es).map (e * ·)

/-- `get_cell_pos_row` on the decoded tile extents. -/
def cellPosRowAux (extents coords : List Int) : Int :=
  dotL coords (cellOffsetsRow extents)

/-- `get_cell_pos_col` on the decoded tile extents. -/
def cellPosColAux (extents coords : List Int) : Int :=
  dotL coords (cellOffsetsCol extents)

/-- `ArraySchema::get_cell_pos_row<T>` (integer coordinate types; float
instantiations are floating point and not modelled). -/
def ArraySchema.getCellPosRow (s : ArraySchema) (coords : List Int) : Option Int :=
  s.tileExtentsInt.map fun es => cellPosRowAux es coords

/-- `ArraySchema::get_cell_pos_col<T>`. -/
def ArraySchema.getCellPosCol (s : ArraySchema) (coords : List Int) : Option Int :=
  s.tileExtentsInt.map fun es => cellPosColAux es coords

/-- `ArraySchema::get_cell_pos<T>`: dispatch on the cell order; any other
cell order (Hilbert included) returns `-1`. -/
def ArraySchema.getCellPos (s : ArraySchema) (coords : List Int) : Option Int :=
  if s.cellOrder = coRowMajor then s.getCellPosRow coords
  else if s.cellOrder = coColMajor then s.getCellPosCol coords
  else some (-1)

/-- The per-dimension tile counts `(domain[2i+1] - domain[2i] + 1) /
tile_extents[i]` with C integer division. -/
def tileCounts : List Int → List Int → List Int
  | lo :: hi :: ds, e :: es => Int.tdiv (hi - lo + 1) e :: tileCounts ds es
  | _, _ => []

/-- `get_tile_pos_row` on decoded domain and extents: offsets are the
suffix products of the per-dimension tile counts. -/
def tilePosRowAux (domain extents tileCoords : List Int) : Int :=
  dotL tileCoords (cellOffsetsRow (tileCounts domain extents))

/-- `get_tile_pos_col` on decoded domain and extents: offsets are the
prefix products of the per-dimension tile counts. -/
def tilePosColAux (domain extents tileCoords : List Int) : Int :=
  dotL tileCoords (cellOffsetsCol (tileCounts domain extents))

/-- `ArraySchema::get_tile_pos_row<T>`. -/
def ArraySchema.getTilePosRow (s : ArraySchema) (tileCoords : List Int) : Option Int :=
  match s.domainInt, s.tileExtentsInt with
  | some dom, some ext => some (tilePosRowAux dom ext tileCoords)
  | _, _ => none

/-- `ArraySchema::get_tile_pos_col<T>`. -/
def ArraySchema.getTilePosCol (s : ArraySchema) (tileCoords : List Int) : Option Int :=
  match s.domainInt, s.tileExtentsInt with
  | some dom, some ext => some (tilePosColAux dom ext tileCoords)
  | _, _ => none

/-- `ArraySchema::get_tile_pos<T>`: the source dispatches
`get_tile_pos_row` / `get_tile_pos_col` but contains no `return`
statement, so the computed position is discarded and control falls off
the end of a value-returning function; the returned value is undefined
in every branch, modelled as `none`. -/
def ArraySchema.getTilePos (s : ArraySchema) (tileCoords : List Int) : Option Int :=
  if s.tileOrder = toRowMajor then (s.getTilePosRow tileCoords).bind fun _ => none
  else if s.tileOrder = toColMajor then (s.getTilePosCol tileCoords).bind fun _ => none
  else none

/-- Split a flat `[lo0, hi0, lo1, hi1, ...]` array into per-dimension
bound pairs. -/
def toPairs : List Int → List (Int × Int)
  | lo :: hi :: rest => (lo, hi) :: toPairs rest
  | _ => []

/-- The carry loop shared by `get_next_tile_coords_col` (directly) and
`get_next_tile_coords_row` (on reversed lists): increment the first
coordinate; while it exceeds its upper bound and more dimensions remain,
reset it to the lower bound and carry into the next dimension.  The last
dimension of the list is never reset (the loop guard `i < dim_num-1`
resp. `i > 0`), so it may exceed its bound, which is how callers detect
termination. -/
def incCarry : List (Int × Int) → List Int → List Int
  | (lo, hi) :: ds, c :: cs =>
      if c + 1 > hi ∧ cs ≠ [] then lo :: incCarry ds cs else (c + 1) :: cs
  | _, cs => cs

/-- `get_next_tile_coords_col<T>` on paired bounds. -/
def nextTileCoordsColAux (dom : List (Int × Int)) (tc : List Int) : List Int :=
  incCarry dom tc

/-- `get_next_tile_coords_row<T>` on paired bounds: the same carry loop
started from the last dimension. -/
def nextTileCoordsRowAux (dom : List (Int × Int)) (tc : List Int) : List Int :=
  (incCarry dom.reverse tc.reverse).reverse

/-- `ArraySchema::get_next_tile_coords<T>`: dispatch on the tile order; for
any other tile order (Hilbert included) the source does nothing and the
coordinates are unchanged. -/
def ArraySchema.getNextTileCoords (s : ArraySchema) (domain tc : List Int) : List Int :=
  if s.tileOrder = toRowMajor then nextTileCoordsRowAux (toPairs domain) tc
  else if s.tileOrder = toColMajor then nextTileCoordsColAux (toPairs domain) tc
  else tc

/-- `ArraySchema::cell_num_in_tile_slab_row<T>`: `tile_extents[dim_num-1]`. -/
def ArraySchema.cellNumInTileSlabRow (s : ArraySchema) : Option Int :=
  s.tileExtentsInt.map fun es => es.getD (s.dimNum - 1) 0

/-- `ArraySchema::cell_num_in_tile_slab_col<T>`: `tile_extents[0]`. -/
def ArraySchema.cellNumInTileSlabCol (s : ArraySchema) : Option Int :=
  s.tileExtentsInt.map fun es => es.getD 0 0

/-- `ArraySchema::cell_num_in_tile_slab<T>`: dispatch on cell order,
`-1` for any other cell order (Hilbert included). -/
def ArraySchema.cellNumInTileSlab (s : ArraySchema) : Option Int :=
  if s.cellOrder = coRowMajor then s.cellNumInTileSlabRow
  else if s.cellOrder = coColMajor then s.cellNumInTileSlabCol
  else some (-1)

/-- `ArraySchema::cell_num_in_range_slab_row<T>`:
`range[2*(dim_num-1)+1] - range[2*(dim_num-1)] + 1`. -/
def ArraySchema.cellNumInRangeSlabRow (s : ArraySchema) (range : List Int) : Int :=
  range.getD (2 * (s.dimNum - 1) + 1) 0 - range.getD (2 * (s.dimNum - 1)) 0 + 1

/-- `ArraySchema::cell_num_in_range_slab_col<T>`: `range[1] - range[0] + 1`. -/
def ArraySchema.cellNumInRangeSlabCol (s : ArraySchema) (range : List Int) : Int :=
  range.getD 1 0 - range.getD 0 0 + 1

/-- `ArraySchema::cell_num_in_range_slab<T>`: dispatch on cell order,
`-1` for any other cell order (Hilbert included). -/
def ArraySchema.cellNumInRangeSlab (s : ArraySchema) (range : List Int) : Int :=
  if s.cellOrder = coRowMajor then s.cellNumInRangeSlabRow range
  else if s.cellOrder = coColMajor then s.cellNumInRangeSlabCol range
  else -1

/-- `ArraySchema::tile_num<T>`: the product over the dimensions of
`(domain[2i+1] - domain[2i] + 1) / tile_extents[i]`; the untyped
accessor asserts for non-integer coordinate types (modelled `none`). -/
def ArraySchema.tileNum (s : ArraySchema) : Option Int :=
  match s.domainInt, s.tileExtentsInt with
  | some dom, some ext => some (tileCounts dom ext).prod
  | _, _ => none

/- ### Overlap classification -/

/-- The intersection loop of `compute_mbr_range_overlap`:
`[max(mbr_lo, range_lo), min(mbr_hi, range_hi)]` per dimension. -/
def mbrOverlapRange : List Int → List Int → List Int
  | rlo :: rhi :: rs, mlo :: mhi :: ms =>
      max mlo rlo :: min mhi rhi :: mbrOverlapRange rs ms
  | _, _ => []

/-- The no-overlap test: some dimension has
`overlap_lo > mbr_hi` or `overlap_hi < mbr_lo`. -/
def overlapDisjoint : List Int → List Int → Bool
  | olo :: ohi :: os, mlo :: mhi :: ms =>
      (decide (olo > mhi) || decide (ohi < mlo)) || overlapDisjoint os ms
  | _, _ => false

/-- The partial-overlap test: some dimension of the overlap differs from
the mbr. -/
def overlapDiffers : List Int → List Int → Bool
  | olo :: ohi :: os, mlo :: mhi :: ms =>
      (decide (olo ≠ mlo) || decide (ohi ≠ mhi)) || overlapDiffers os ms
  | _, _ => false

/-- `ArraySchema::compute_mbr_range_overlap<T>` (integer instantiations):
intersect the range with the mbr and classify the overlap.
Code 0: disjoint; 1: the overlap equals the mbr; 3: partial but equal to
the mbr on every dimension except the major one (first for row-major
checked over dims `1..`, last for column-major checked over dims
`..dim_num-2`), never under a Hilbert cell order; 2: other partial. -/
def ArraySchema.computeMbrRangeOverlap (s : ArraySchema) (range mbr : List Int) :
    List Int × Int :=
  let ov := mbrOverlapRange range mbr
  let code : Int :=
    if overlapDisjoint ov mbr then 0
    else if ¬ overlapDiffers ov mbr then 1
    else if s.cellOrder ≠ coHilbert then
      if s.cellOrder = coRowMajor then
        if overlapDiffers (ov.drop 2) (mbr.drop 2) then 2 else 3
      else if s.cellOrder = coColMajor then
        if overlapDiffers (ov.take (2 * (s.dimNum - 1))) (mbr.take (2 * (s.dimNum - 1))) then 2
        else 3
      else 3
    else 2
  (ov, code)

/-- The tile-local intersection loop of `compute_tile_range_overlap`: the
tile's absolute range is `[lo + t*e, lo + t*e + e - 1]`; the overlap with
`range` is expressed relative to the tile start. -/
def tileOverlapRange : List Int → List Int → List Int → List Int → List Int
  | lo :: _ :: ds, e :: es, t :: ts, rlo :: rhi :: rs =>
      (max (lo + t * e) rlo - (lo + t * e)) ::
      (min (lo + t * e + e - 1) rhi - (lo + t * e)) ::
      tileOverlapRange ds es ts rs
  | _, _, _, _ => []

/-- The tile no-overlap test: some dimension has `overlap_lo >= extent` or
`overlap_hi < 0` in tile-local coordinates. -/
def tileOverlapDisjoint : List Int → List Int → Bool
  | olo :: ohi :: os, e :: es =>
      (decide (olo ≥ e) || decide (ohi < 0)) || tileOverlapDisjoint os es
  | _, _ => false

/-- The tile partial-overlap test: some dimension differs from the full
tile `[0, extent-1]`. -/
def tileOverlapDiffers : List Int → List Int → Bool
  | olo :: ohi :: os, e :: es =>
      (decide (olo ≠ 0) || decide (ohi ≠ e - 1)) || tileOverlapDiffers os es
  | _, _ => false

/-- `ArraySchema::compute_tile_range_overlap<T>` (integer instantiations).
Codes as for the mbr variant, in tile-local coordinates; note that the
source's code-3 check here has no Hilbert guard: with a cell order that
is neither row- nor column-major a partial overlap keeps code 3. -/
def ArraySchema.computeTileRangeOverlap (s : ArraySchema) (range tileCoords : List Int) :
    Option (List Int × Int) :=
  match s.domainInt, s.tileExtentsInt with
  | some dom, some ext =>
    let ov := tileOverlapRange dom ext tileCoords range
    let code : Int :=
      if tileOverlapDisjoint ov ext then 0
      else if ¬ tileOverlapDiffers ov ext then 1
      else if s.cellOrder = coRowMajor then
        if tileOverlapDiffers (ov.drop 2) (ext.drop 1) then 2 else 3
      else if s.cellOrder = coColMajor then
        if tileOverlapDiffers (ov.take (2 * (s.dimNum - 1))) (ext.take (s.dimNum - 1)) then 2
        else 3
      else 3
    some (ov, code)
  | _, _ => none

/- ## Codec -/

/-- The byte written for a type slot by `serialize`.  For a null slot the
source's local `type` variable would keep a stale value (undefined);
that case is mapped to 0 and is unreachable for schemas built by
`init`. -/
def serTypeByte : Option TileDBType → Nat
  | some t => typeCode t
  | none => 0

/-- A `bool` member copied into the buffer. -/
def boolByte (b : Bool) : Nat := if b then 1 else 0

/-- `ArraySchema::serialize`: the wire format, appended in source order.
The `take`s realize the source's loops over `i < attribute_num` (resp.
`<= attribute_num`, `< dim_num`) and its `memcpy` of exactly
`2 * coords_size()` (resp. `coords_size()`) blob bytes; `% 256` is the
`char` cast on the order and compressor codes. -/
def serialize (s : ArraySchema) : List Nat :=
  encInt 4 s.arrayName.length
  ++ s.arrayName
  ++ [boolByte s.dense]
  ++ [boolByte s.keyValue]
  ++ [s.tileOrder % 256]
  ++ [s.cellOrder % 256]
  ++ encInt 8 s.capacity
  ++ encInt 4 s.consolidationStep
  ++ encInt 4 s.attributeNum
  ++ ((s.attributes.take s.attributeNum).map fun a => encInt 4 a.length ++ a).flatten
  ++ encInt 4 s.dimNum
  ++ ((s.dimensions.take s.dimNum).map fun d => encInt 4 d.length ++ d).flatten
  ++ encInt 4 (2 * s.coordsSize)
  ++ s.domain.take (2 * s.coordsSize).toNat
  ++ encInt 4 (match s.tileExtents with | none => 0 | some _ => s.coordsSize)
  ++ (match s.tileExtents with | none => [] | some b => b.take s.coordsSize.toNat)
  ++ (s.types.take (s.attributeNum + 1)).map serTypeByte
  ++ ((s.valNum.take s.attributeNum).map fun v => encInt 4 v).flatten
  ++ (s.compression.take (s.attributeNum + 1)).map (· % 256)

/-- `ArraySchema::compute_bin_size`: the byte budget of the wire format,
field by field in source order. -/
def computeBinSize (s : ArraySchema) : Nat :=
  (4 + s.arrayName.length)
  + 1
  + 1
  + 2
  + 8
  + 4
  + (4 + ((s.attributes.take s.attributeNum).map fun a => 4 + a.length).sum)
  + (4 + ((s.dimensions.take s.dimNum).map fun d => 4 + d.length).sum)
  + (4 + (2 * s.coordsSize).toNat)
  + (4 + (match s.tileExtents with | none => 0 | some _ => s.coordsSize.toNat))
  + (s.attributeNum + 1)
  + 4 * s.attributeNum
  + (s.attributeNum + 1)

/-- Consume `n` bytes of the buffer; `none` is the out-of-bounds read
that the source only guards with assertions. -/
def readBytes (n : Nat) (b : List Nat) : Option (List Nat × List Nat) :=
  if n ≤ b.length then some (b.take n, b.drop n) else none

/-- Read one byte. -/
def readByte (b : List Nat) : Option (Nat × List Nat) :=
  match b with
  | [] => none
  | x :: r => some (x, r)

/-- Read a `w`-byte signed integer. -/
def readInt (w : Nat) (b : List Nat) : Option (Int × List Nat) :=
  (readBytes w b).map fun p => (decIntLE p.1, p.2)

/-- Fail on a negative length prefix (`std::vector::resize` /
`std::string::resize` with a negative size throws). -/
def guardNonneg (n : Int) : Option Unit :=
  if n < 0 then none else some ()

/-- The deserializer's name loops: a length prefix followed by that many
name bytes, `count` times. -/
def readNames : Nat → List Nat → Option (List (List Nat) × List Nat)
  | 0, b => some ([], b)
  | k + 1, b => do
      let (len, b1) ← readInt 4 b
      let _ ← guardNonneg len
      let (nm, b2) ← readBytes len.toNat b1
      let (rest, b3) ← readNames k b2
      some (nm :: rest, b3)

/-- The deserializer's `val_num_` loop: `count` 4-byte integers. -/
def readInts : Nat → List Nat → Option (List Int × List Nat)
  | 0, b => some ([], b)
  | k + 1, b => do
      let (v, b1) ← readInt 4 b
      let (vs, b2) ← readInts k b1
      some (v :: vs, b2)

/-- The header fields of the wire format, through `consolidation_step`. -/
structure HdrFields where
  arrayName : List Nat
  denseByte : Nat
  keyValueByte : Nat
  tileOrderByte : Nat
  cellOrderByte : Nat
  capacity : Int
  consolidationStep : Int

/-- The name sections and blobs of the wire format. -/
structure MidFields where
  attributeNum : Nat
  attrs : List (List Nat)
  dimNum : Nat
  dims : List (List Nat)
  domain : List Nat

/-- The trailing sections of the wire format. -/
structure TailFields where
  tileExtents : Option (List Nat)
  typeBytes : List Nat
  valNum : List Int
  compressionBytes : List Nat

/-- `deserialize`, first stage: array name, flags, orders, capacity and
consolidation step, in source order. -/
def parseHeader (buf : List Nat) : Option (HdrFields × List Nat) :=
  Option.bind (readInt 4 buf) fun p0 =>
  Option.bind (guardNonneg p0.1) fun _ =>
  Option.bind (readBytes p0.1.toNat p0.2) fun p1 =>
  Option.bind (readByte p1.2) fun p2 =>
  Option.bind (readByte p2.2) fun p3 =>
  Option.bind (readByte p3.2) fun p4 =>
  Option.bind (readByte p4.2) fun p5 =>
  Option.bind (readInt 8 p5.2) fun p6 =>
  Option.bind (readInt 4 p6.2) fun p7 =>
  some (⟨p1.1, p2.1, p3.1, p4.1, p5.1, p6.1, p7.1⟩, p7.2)

/-- `deserialize`, second stage: attribute names, dimension names and the
domain blob, each with its length prefix. -/
def parseMid (buf : List Nat) : Option (MidFields × List Nat) :=
  Option.bind (readInt 4 buf) fun p0 =>
  Option.bind (guardNonneg p0.1) fun _ =>
  Option.bind (readNames p0.1.toNat p0.2) fun p1 =>
  Option.bind (readInt 4 p1.2) fun p2 =>
  Option.bind (guardNonneg p2.1) fun _ =>
  Option.bind (readNames p2.1.toNat p2.2) fun p3 =>
  Option.bind (readInt 4 p3.2) fun p4 =>
  Option.bind (guardNonneg p4.1) fun _ =>
  Option.bind (readBytes p4.1.toNat p4.2) fun p5 =>
  some (⟨p0.1.toNat, p1.1, p2.1.toNat, p3.1, p5.1⟩, p5.2)

/-- `deserialize`, third stage: the optional tile-extents blob, the type
bytes, the value counts and the compressor bytes. -/
def parseTail (attributeNum : Nat) (buf : List Nat) : Option (TailFields × List Nat) :=
  Option.bind (readInt 4 buf) fun p0 =>
  Option.bind (guardNonneg p0.1) fun _ =>
  Option.bind
    (if p0.1 = 0 then some ((none : Option (List Nat)), p0.2)
     else (readBytes p0.1.toNat p0.2).map fun q => (some q.1, q.2)) fun p1 =>
  Option.bind (readBytes (attributeNum + 1) p1.2) fun p2 =>
  Option.bind (readInts attributeNum p2.2) fun p3 =>
  Option.bind (readBytes (attributeNum + 1) p3.2) fun p4 =>
  some (⟨p1.1, p2.1, p3.1, p4.1⟩, p4.2)

/-- The reconstruction step of `deserialize`: store the parsed primaries
(the synthetic `__coords` name re-appended, the type bytes decoded, the
var-sized attributes recounted) and recompute the derived fields exactly
as the builder's finalization does (`compute_cell_size`,
`compute_cell_num_per_tile`, `compute_tile_sizes`,
`compute_tile_domain`, `init_hilbert_curve`). -/
def rebuildSchema (h : HdrFields) (m : MidFields) (t : TailFields) :
    Option ArraySchema :=
  let types := t.typeBytes.map typeOfCode
  let cellSizes := computeCellSizes types t.valNum m.attributeNum m.dimNum
  let coordsType := types.getD m.attributeNum none
  let dense := h.denseByte != 0
  Option.bind
    (computeCellNumPerTileFresh dense coordsType t.tileExtents h.capacity)
    fun cellNumPerTile =>
  some {
    arrayName := h.arrayName
    attributeNum := m.attributeNum
    attributes := m.attrs ++ [tiledbCoordsName]
    capacity := h.capacity
    cellNumPerTile := cellNumPerTile
    cellOrder := h.cellOrderByte
    cellSizes := cellSizes
    compression := t.compressionBytes
    consolidationStep := h.consolidationStep
    dense := dense
    dimNum := m.dimNum
    dimensions := m.dims
    domain := m.domain
    keyValue := h.keyValueByte != 0
    tileDomain := computeTileDomain coordsType m.domain t.tileExtents
    tileExtents := t.tileExtents
    tileOrder := h.tileOrderByte
    tileSizes := computeTileSizes cellSizes cellNumPerTile m.attributeNum
    typeSizes := types.map computeTypeSize
    types := types
    valNum := t.valNum
    varAttributeNum := t.valNum.count varSizeSentinel
    hilbertBits := computeHilbertBits h.cellOrderByte coordsType m.domain }

/-- `ArraySchema::deserialize`: the strict field-by-field inverse of
`serialize` (stages in source order) followed by the same derived-field
recomputation as the builder.  The final `rest = []` check is the
source's `assert(offset == buffer_size)`. -/
def deserialize (buf : List Nat) : Option ArraySchema :=
  Option.bind (parseHeader buf) fun ph =>
  Option.bind (parseMid ph.2) fun pm =>
  Option.bind (parseTail pm.1.attributeNum pm.2) fun pt =>
  if pt.2 = [] then rebuildSchema ph.1 pm.1 pt.1 else none

/- ## Builder / validator -/

/-- The builder's input bundle `ArraySchemaC` (nullable pointers become
`Option`; counted arrays become lists whose length must match the
count, since shorter arrays would be read out of bounds). -/
structure ArraySchemaC where
  arrayName : String
  attributes : Option (List String)
  attributeNum : Int
  capacity : Int
  cellOrder : Option String
  compression : Option (List String)
  consolidationStep : Int
  dense : Bool
  dimensions : Option (List String)
  dimNum : Int
  domain : Option (List Nat)
  tileExtents : Option (List Nat)
  tileOrder : Option String
  types : Option (List String)

/-- Modelled from the spec: `real_dir` (from the absent `utils.cc`)
resolves the array name to a canonical directory form; on the
already-canonical names used here it is the identity. -/
def realDir (name : String) : String := name

/-- Duplicate test (`has_duplicates`, from the absent `utils.cc`,
modelled from the spec's "no duplicate names"). -/
def hasDuplicates : List (List Nat) → Bool
  | [] => false
  | x :: xs => xs.contains x || hasDuplicates xs

/-- Intersection test (`intersect`, from the absent `utils.cc`, modelled
from the spec's "names must not collide"). -/
def intersects (a b : List (List Nat)) : Bool :=
  a.any fun x => b.contains x

/-- `ArraySchema::set_array_name`. -/
def setArrayName (s : ArraySchema) (name : String) : ArraySchema :=
  { s with arrayName := strBytes (realDir name) }

/-- `ArraySchema::set_attributes`: requires a non-null list and a positive
count (whose length matches the count — a shorter array would be read
out of bounds), appends the synthetic `__coords` name, and rejects
duplicates and attribute/dimension collisions. -/
def setAttributes (s : ArraySchema) (attrsIn : Option (List String)) (num : Int) :
    Option ArraySchema :=
  match attrsIn with
  | none => none
  | some names =>
    if num ≤ 0 then none
    else if names.length = num.toNat then
      let attrs := names.map strBytes ++ [tiledbCoordsName]
      if hasDuplicates attrs then none
      else if intersects attrs s.dimensions then none
      else some { s with attributes := attrs, attributeNum := num.toNat }
    else none

/-- `ArraySchema::set_capacity`: non-positive input selects the default. -/
def setCapacity (s : ArraySchema) (c : Int) : ArraySchema :=
  if 0 < c then { s with capacity := c } else { s with capacity := defaultCapacity }

/-- `ArraySchema::set_consolidation_step`. -/
def setConsolidationStep (s : ArraySchema) (c : Int) : ArraySchema :=
  if 0 < c then { s with consolidationStep := c }
  else { s with consolidationStep := defaultConsolidationStep }

/-- `ArraySchema::set_dense`. -/
def setDense (s : ArraySchema) (d : Bool) : ArraySchema :=
  { s with dense := d }

/-- `ArraySchema::set_dimensions`. -/
def setDimensions (s : ArraySchema) (dimsIn : Option (List String)) (num : Int) :
    Option ArraySchema :=
  match dimsIn with
  | none => none
  | some names =>
    if num ≤ 0 then none
    else if names.length = num.toNat then
      let dims := names.map strBytes
      if hasDuplicates dims then none
      else if intersects s.attributes dims then none
      else some { s with dimensions := dims, dimNum := num.toNat }
    else none

/-- `ArraySchema::set_compression`: a null list selects all-NONE;
otherwise `attribute_num + 1` entries, each `NONE` or `GZIP`. -/
def setCompression (s : ArraySchema) (cmpIn : Option (List String)) :
    Option ArraySchema :=
  match cmpIn with
  | none => some { s with compression := List.replicate (s.attributeNum + 1) cmpNone }
  | some names =>
    if names.length = s.attributeNum + 1 then do
      let codes ← names.mapM fun c =>
        if c = "NONE" then some cmpNone
        else if c = "GZIP" then some cmpGzip
        else none
      some { s with compression := codes }
    else none

/-- Split a character list at each `:` (the `strtok` loop of
`set_types`). -/
def splitOnColon : List Char → List (List Char)
  | [] => [[]]
  | c :: cs =>
    if c = ':' then [] :: splitOnColon cs
    else
      match splitOnColon cs with
      | [] => [[c]]
      | p :: ps => (c :: p) :: ps

/-- Decimal digit accumulation for `sscanf(token, "%d", ...)`. -/
def charsToNatAux : List Char → Nat → Option Nat
  | [], acc => some acc
  | c :: cs, acc =>
    if c.isDigit then charsToNatAux cs (10 * acc + (c.toNat - 48)) else none

/-- The decimal value of a non-empty all-digit token. -/
def charsToNat? (cs : List Char) : Option Nat :=
  match cs with
  | [] => none
  | _ => charsToNatAux cs 0

/-- Base-type tokens accepted for attributes. -/
def parseBaseType (t : List Char) : Option TileDBType :=
  if t = "char".data then some .tChar
  else if t = "int32".data then some .tInt32
  else if t = "int64".data then some .tInt64
  else if t = "float32".data then some .tFloat32
  else if t = "float64".data then some .tFloat64
  else none

/-- `is_positive_integer` (from the absent `utils.cc`, modelled from the
spec: the token is a positive decimal number). -/
def isPositiveInteger (tok : List Char) : Bool :=
  match charsToNat? tok with
  | some n => decide (0 < n)
  | none => false

/-- One attribute-type token of `set_types`: `strtok` on `:` (consecutive
and trailing separators are skipped, hence the filter) yields the base
type and optionally `var` or a positive value count; a missing count
means 1. -/
def parseAttrTypeToken (tok : String) : Option (TileDBType × Int) :=
  let parts := (splitOnColon tok.data).filter fun p => p ≠ []
  match parts with
  | [t] => (parseBaseType t).map fun ty => (ty, 1)
  | [t, v] =>
    if v = "var".data then (parseBaseType t).map fun ty => (ty, varSizeSentinel)
    else if isPositiveInteger v then
      match charsToNat? v with
      | some n => (parseBaseType t).map fun ty => (ty, (n : Int))
      | none => none
    else none
  | _ => none

/-- Coordinate-type tokens accepted (besides `char:var`). -/
def parseCoordType (t : String) : Option TileDBType :=
  if t = "int32" then some .tInt32
  else if t = "int64" then some .tInt64
  else if t = "float32" then some .tFloat32
  else if t = "float64" then some .tFloat64
  else none

/-- The tail of `set_types`: `type_sizes_` and `cell_sizes_` recomputed
for all slots. -/
def setTypeAndCellSizes (s : ArraySchema) : ArraySchema :=
  { s with
    typeSizes := s.types.map computeTypeSize
    cellSizes := computeCellSizes s.types s.valNum s.attributeNum s.dimNum }

/-- `ArraySchema::set_types`: parses the `attribute_num` attribute tokens,
counts the variable-sized ones, then handles the coordinate token: the
exact string `char:var` activates key-value mode (coordinates become
`int32` and the single dimension is replaced by four `_1..\x5f4` suffixed
names); otherwise dense arrays reject float coordinates and the token
must be one of the four scalar coordinate types.  Finally the type and
cell sizes are computed. -/
def setTypes (s : ArraySchema) (typesIn : Option (List String)) : Option ArraySchema :=
  match typesIn with
  | none => none
  | some ts =>
    if ts.length = s.attributeNum + 1 then do
      let parsed ← (ts.take s.attributeNum).mapM parseAttrTypeToken
      let attrTypes := parsed.map fun p => some p.1
      let valNum := parsed.map fun p => p.2
      let varNum := valNum.count varSizeSentinel
      let coordTok := ts.getD s.attributeNum ""
      if coordTok = "char:var" then
        let d0 := s.dimensions.getD 0 []
        some (setTypeAndCellSizes
          { s with
            types := attrTypes ++ [some .tInt32]
            valNum := valNum
            varAttributeNum := varNum
            keyValue := true
            dimNum := 4
            dimensions := [d0 ++ strBytes "_1", d0 ++ strBytes "_2",
                           d0 ++ strBytes "_3", d0 ++ strBytes "_4"] })
      else if s.dense ∧ (coordTok = "float32" ∨ coordTok = "float64") then none
      else do
        let cty ← parseCoordType coordTok
        some (setTypeAndCellSizes
          { s with
            types := attrTypes ++ [some cty]
            valNum := valNum
            varAttributeNum := varNum
            keyValue := false })
    else none

/-- `ArraySchema::set_tile_extents`: dense arrays require extents; a
non-null blob must span `coords_size()` bytes (a shorter blob would be
read out of bounds). -/
def setTileExtents (s : ArraySchema) (extIn : Option (List Nat)) : Option ArraySchema :=
  match extIn with
  | none => if s.dense then none else some { s with tileExtents := none }
  | some bs =>
    if bs.length = s.coordsSize.toNat then some { s with tileExtents := some bs }
    else none

/-- `ArraySchema::set_cell_order`: null selects the default; `hilbert` is
rejected when tile extents are present; unknown tokens are rejected. -/
def setCellOrder (s : ArraySchema) (o : Option String) : Option ArraySchema :=
  match o with
  | none => some { s with cellOrder := defaultCellOrderCode }
  | some str =>
    if str = "row-major" then some { s with cellOrder := coRowMajor }
    else if str = "column-major" then some { s with cellOrder := coColMajor }
    else if str = "hilbert" then
      if s.tileExtents ≠ none then none
      else some { s with cellOrder := coHilbert }
    else none

/-- `ArraySchema::set_tile_order`: as `set_cell_order`. -/
def setTileOrder (s : ArraySchema) (o : Option String) : Option ArraySchema :=
  match o with
  | none => some { s with tileOrder := defaultTileOrderCode }
  | some str =>
    if str = "row-major" then some { s with tileOrder := toRowMajor }
    else if str = "column-major" then some { s with tileOrder := toColMajor }
    else if str = "hilbert" then
      if s.tileExtents ≠ none then none
      else some { s with tileOrder := toHilbert }
    else none

/-- The domain sanity loop: every lower bound at most its upper bound. -/
def domainSorted : List Int → Bool
  | lo :: hi :: ds => decide (lo ≤ hi) && domainSorted ds
  | _ => true

/-- `ArraySchema::set_domain`: a non-null blob of `2 * coords_size()`
bytes (a shorter blob would be read out of bounds), whose decoded bounds
must satisfy `lo <= hi` per dimension for integer coordinate types.  The
float branches compare floats (not modelled; accepted here — immaterial
to the claims, which fix integer coordinates or do not depend on
`set_domain`'s verdict).  A coordinate slot that is not one of the four
coordinate scalar types is rejected. -/
def setDomain (s : ArraySchema) (domIn : Option (List Nat)) : Option ArraySchema :=
  match domIn with
  | none => none
  | some dBytes =>
    if dBytes.length = (2 * s.coordsSize).toNat then
      let s' := { s with domain := dBytes }
      match s.coordsType with
      | some .tInt32 => if domainSorted (decodeScalars 4 dBytes) then some s' else none
      | some .tInt64 => if domainSorted (decodeScalars 8 dBytes) then some s' else none
      | some .tFloat32 => some s'
      | some .tFloat64 => some s'
      | _ => none
    else none

/-- The derived-field epilogue of `init`: `compute_cell_num_per_tile`,
`compute_tile_sizes`, `compute_tile_domain`, `init_hilbert_curve`. -/
def computeDerived (s : ArraySchema) : Option ArraySchema := do
  let cnpt ← computeCellNumPerTileFresh s.dense s.coordsType s.tileExtents s.capacity
  some { s with
    cellNumPerTile := cnpt
    tileSizes := computeTileSizes s.cellSizes cnpt s.attributeNum
    tileDomain := computeTileDomain s.coordsType s.domain s.tileExtents
    hilbertBits := computeHilbertBits s.cellOrder s.coordsType s.domain }

/-- `ArraySchema::init`: the setters in source order, then the derived
fields. -/
def init (c : ArraySchemaC) : Option ArraySchema := do
  let s := setArrayName emptySchema c.arrayName
  let s ← setAttributes s c.attributes c.attributeNum
  let s := setCapacity s c.capacity
  let s ← setDimensions s c.dimensions c.dimNum
  let s ← setCompression s c.compression
  let s := setConsolidationStep s c.consolidationStep
  let s := setDense s c.dense
  let s ← setTypes s c.types
  let s ← setTileExtents s c.tileExtents
  let s ← setCellOrder s c.cellOrder
  let s ← setTileOrder s c.tileOrder
  let s ← setDomain s c.domain
  computeDerived s

/-- Little-endian encoding of a vector of `w`-byte scalars, the layout of
the `domain_` and `tile_extents_` blobs for an integer coordinate
type. -/
def encScalars (w : Nat) (vs : List Int) : List Nat :=
  (vs.map fun v => encInt w v).flatten

/-- The builder input of scenario S1: dense 2-D `int64` array `"A"`,
dimensions `x, y`, one `int64` attribute `v`, domain `[0,9] x [0,9]`,
tile extents `5 x 5`, row-major tile and cell order, no compression. -/
def s1Input : ArraySchemaC where
  arrayName := "A"
  attributes := some ["v"]
  attributeNum := 1
  capacity := 0
  cellOrder := some "row-major"
  compression := some ["NONE", "NONE"]
  consolidationStep := 0
  dense := true
  dimensions := some ["x", "y"]
  dimNum := 2
  domain := some (encScalars 8 [0, 9, 0, 9])
  tileExtents := some (encScalars 8 [5, 5])
  tileOrder := some "row-major"
  types := some ["int64", "int64"]

/-- The schema that `init` builds from `s1Input` (scenario S1), written
out field by field. -/
def s1 : ArraySchema where
  arrayName := strBytes "A"
  attributeNum := 1
  attributes := [strBytes "v", tiledbCoordsName]
  capacity := defaultCapacity
  cellNumPerTile := 25
  cellOrder := coRowMajor
  cellSizes := [8, 16]
  compression := [cmpNone, cmpNone]
  consolidationStep := defaultConsolidationStep
  dense := true
  dimNum := 2
  dimensions := [strBytes "x", strBytes "y"]
  domain := encScalars 8 [0, 9, 0, 9]
  keyValue := false
  tileDomain := some [0, 1, 0, 1]
  tileExtents := some (encScalars 8 [5, 5])
  tileOrder := toRowMajor
  tileSizes := [200, 400]
  typeSizes := [8, 8]
  types := [some .tInt64, some .tInt64]
  valNum := [1]
  varAttributeNum := 0
  hilbertBits := 0

/-- The builder input of scenario S4: sparse 2-D `int32` array with a
variable-sized attribute `v` and a fixed attribute `w`, domain
`[0,1023] x [0,1023]`, no tile extents, Hilbert cell order, capacity
10000. -/
def s4Input : ArraySchemaC where
  arrayName := "kv"
  attributes := some ["v", "w"]
  attributeNum := 2
  capacity := 10000
  cellOrder := some "hilbert"
  compression := none
  consolidationStep := 5
  dense := false
  dimensions := some ["x", "y"]
  dimNum := 2
  domain := some (encScalars 4 [0, 1023, 0, 1023])
  tileExtents := none
  tileOrder := none
  types := some ["int32:var", "int32", "int32"]

/-- The schema that `init` builds from `s4Input` (scenario S4). -/
def s4 : ArraySchema where
  arrayName := strBytes "kv"
  attributeNum := 2
  attributes := [strBytes "v", strBytes "w", tiledbCoordsName]
  capacity := 10000
  cellNumPerTile := 10000
  cellOrder := coHilbert
  cellSizes := [varSizeSentinel, 4, 8]
  compression := [cmpNone, cmpNone, cmpNone]
  consolidationStep := 5
  dense := false
  dimNum := 2
  dimensions := [strBytes "x", strBytes "y"]
  domain := encScalars 4 [0, 1023, 0, 1023]
  keyValue := false
  tileDomain := none
  tileExtents := none
  tileOrder := toRowMajor
  tileSizes := [80000, 40000, 80000]
  typeSizes := [4, 4, 4]
  types := [some .tInt32, some .tInt32, some .tInt32]
  valNum := [varSizeSentinel, 1]
  varAttributeNum := 1
  hilbertBits := 10

/-- Length constraint of the optional tile-extents blob:
`coords_size()` bytes when present. -/
def extentsLenOk (s : ArraySchema) : Bool :=
  match s.tileExtents with
  | none => true
  | some bs => bs.length == s.coordsSize.toNat

/-- Validity of a schema: the structural invariants that
`ArraySchema::init` establishes (counts, name-list shapes, machine-range
bounds on everything the codec writes through an `int`, the
dense/Hilbert tile-extent rules) together with the derived fields being
exactly the values their compute functions produce from the primaries. -/
@[reducible] def wellFormed (s : ArraySchema) : Prop :=
  1 ≤ s.attributeNum ∧ (s.attributeNum : Int) < 2 ^ 31 ∧
  1 ≤ s.dimNum ∧ (s.dimNum : Int) < 2 ^ 31 ∧
  (s.arrayName.length : Int) < 2 ^ 31 ∧
  s.attributes.length = s.attributeNum + 1 ∧
  s.attributes.getLast? = some tiledbCoordsName ∧
  (∀ a ∈ s.attributes, (a.length : Int) < 2 ^ 31) ∧
  s.dimensions.length = s.dimNum ∧
  (∀ d ∈ s.dimensions, (d.length : Int) < 2 ^ 31) ∧
  0 < s.capacity ∧ s.capacity < 2 ^ 63 ∧
  0 < s.consolidationStep ∧ s.consolidationStep < 2 ^ 31 ∧
  s.tileOrder < 256 ∧ s.cellOrder < 256 ∧
  s.types.length = s.attributeNum + 1 ∧
  (∀ t ∈ s.types, t.isSome = true) ∧
  s.valNum.length = s.attributeNum ∧
  (∀ v ∈ s.valNum, -(2 ^ 31) ≤ v ∧ v < 2 ^ 31) ∧
  s.compression.length = s.attributeNum + 1 ∧
  (∀ c ∈ s.compression, c < 256) ∧
  0 < s.coordsSize ∧ 2 * s.coordsSize < 2 ^ 31 ∧
  s.domain.length = (2 * s.coordsSize).toNat ∧
  extentsLenOk s = true ∧
  (s.cellOrder ≠ coHilbert ∨ s.tileExtents = none) ∧
  (s.tileOrder ≠ toHilbert ∨ s.tileExtents = none) ∧
  (s.dense = false ∨ s.tileExtents ≠ none) ∧
  s.typeSizes = s.types.map computeTypeSize ∧
  s.cellSizes = computeCellSizes s.types s.valNum s.attributeNum s.dimNum ∧
  s.varAttributeNum = s.valNum.count varSizeSentinel ∧
  computeCellNumPerTileFresh s.dense s.coordsType s.tileExtents s.capacity
    = some s.cellNumPerTile ∧
  s.tileDomain = computeTileDomain s.coordsType s.domain s.tileExtents ∧
  s.tileSizes = computeTileSizes s.cellSizes s.cellNumPerTile s.attributeNum ∧
  s.hilbertBits = computeHilbertBits s.cellOrder s.coordsType s.domain

/-- `ArraySchema::cell_size(attribute_id)`: `cell_sizes_[attribute_id]`. -/
def ArraySchema.cellSize (s : ArraySchema) (attributeId : Nat) : Int :=
  s.cellSizes.getD attributeId 0

/-- `ArraySchema::tile_size(attribute_id)`: `tile_sizes_[attribute_id]`. -/
def ArraySchema.tileSize (s : ArraySchema) (attributeId : Nat) : Int :=
  s.tileSizes.getD attributeId 0

/-- Lexicographic comparison of equal-length coordinate vectors with the
first dimension most significant. -/
def lexLt : List Int → List Int → Bool
  | _, [] => false
  | [], _ :: _ => true
  | x :: xs, y :: ys => decide (x < y) || (decide (x = y) && lexLt xs ys)

/-- Lexicographic comparison with the last dimension most significant
(the spec's stated order for row-major positions). -/
def revLexLt (xs ys : List Int) : Bool :=
  lexLt xs.reverse ys.reverse

/-- Zero-based coordinates lying inside a tile of the given extents:
`0 <= c_i < e_i` dimension by dimension. -/
def inTileB : List Int → List Int → Bool
  | [], [] => true
  | e :: es, c :: cs => (decide (0 ≤ c) && decide (c < e)) && inTileB es cs
  | _, _ => false

/-- The full tile in tile-local coordinates, `[0, e_i - 1]` per
dimension. -/
def fullTileLocal : List Int → List Int
  | [] => []
  | e :: es => 0 :: (e - 1) :: fullTileLocal es

/-- Per-dimension bounds hold: `lo_i <= c_i <= hi_i`, one coordinate per
dimension. -/
def inDomB : List (Int × Int) → List Int → Bool
  | [], [] => true
  | (lo, hi) :: ds, c :: cs => (decide (lo ≤ c) && decide (c ≤ hi)) && inDomB ds cs
  | _, _ => false

/-- The carry-order rank of a coordinate vector: the first listed
dimension varies fastest (mixed-radix, least significant first). -/
def rankC : List (Int × Int) → List Int → Int
  | (lo, hi) :: ds, c :: cs => (c - lo) + (hi - lo + 1) * rankC ds cs
  | _, _ => 0

/-- The number of coordinate vectors in the bounds. -/
def sizeProd (dom : List (Int × Int)) : Int :=
  (dom.map fun p => p.2 - p.1 + 1).prod

/-- The vector of lower bounds. -/
def lows (dom : List (Int × Int)) : List Int :=
  dom.map fun p => p.1

/-- The vector of upper bounds. -/
def highs (dom : List (Int × Int)) : List Int :=
  dom.map fun p => p.2

/-- Flatten per-dimension bound pairs back to the `[lo0, hi0, ...]`
array layout. -/
def pairsFlat (dom : List (Int × Int)) : List Int :=
  (dom.map fun p => [p.1, p.2]).flatten

/- ## Theorems -/

theorem length_toBytesLE (w v : Nat) : (toBytesLE w v).length = w := by
  induction w generalizing v with
  | zero => rfl
  | succ w ih => simp [toBytesLE, ih]

theorem decBytesLE_toBytesLE (w v : Nat) :
    decBytesLE (toBytesLE w v) = v % 2 ^ (8 * w) := by
  induction w generalizing v with
  | zero => simp [toBytesLE, decBytesLE, Nat.mod_one]
  | succ w ih =>
      have hpow : 2 ^ (8 * (w + 1)) = 256 * 2 ^ (8 * w) := by ring
      have hsplit : v % (256 * 2 ^ (8 * w)) = v % 256 + 256 * (v / 256 % 2 ^ (8 * w)) := by
        rw [Nat.mod_mul]
      simp [toBytesLE, decBytesLE, ih, hpow, hsplit]

theorem length_encInt (w : Nat) (n : Int) : (encInt w n).length = w := by
  simp [encInt, length_toBytesLE]

/-- Writing a signed integer in range and reading it back is the identity. -/
theorem decIntLE_encInt (w : Nat) (n : Int) (hw : 0 < w)
    (hlo : -(2 ^ (8 * w - 1)) ≤ n) (hhi : n < 2 ^ (8 * w - 1)) :
    decIntLE (encInt w n) = n := by
  have hsplitw : 8 * w = (8 * w - 1) + 1 := by omega
  have hM : (2 : Int) ^ (8 * w) = 2 * 2 ^ (8 * w - 1) := by
    conv_lhs => rw [hsplitw]
    rw [pow_succ]; ring
  set H : Int := 2 ^ (8 * w - 1) with hH
  have hHpos : 0 < H := by positivity
  have hMpos : (0 : Int) < 2 ^ (8 * w) := by positivity
  have hmod : n % 2 ^ (8 * w) = if 0 ≤ n then n else n + 2 ^ (8 * w) := by
    split
    · exact Int.emod_eq_of_lt (by assumption) (by omega)
    · have h1 : n % 2 ^ (8 * w) = (n + 2 ^ (8 * w)) % 2 ^ (8 * w) := by
        simp [Int.add_mul_emod_self_left]
      rw [h1]
      exact Int.emod_eq_of_lt (by omega) (by omega)
  have hnonneg : 0 ≤ n % 2 ^ (8 * w) := Int.emod_nonneg n (by positivity)
  have hlt : n % 2 ^ (8 * w) < 2 ^ (8 * w) := Int.emod_lt_of_pos n hMpos
  unfold decIntLE encInt
  rw [length_toBytesLE, decBytesLE_toBytesLE]
  have hNatPow : ((2 ^ (8 * w) : Nat) : Int) = (2 : Int) ^ (8 * w) := by push_cast; ring
  have hsmall : (n % 2 ^ (8 * w)).toNat < 2 ^ (8 * w) := by omega
  rw [Nat.mod_eq_of_lt (by exact_mod_cast hsmall)]
  have htn : ((n % 2 ^ (8 * w)).toNat : Int) = n % 2 ^ (8 * w) :=
    Int.toNat_of_nonneg hnonneg
  by_cases hn : 0 ≤ n
  · have : n % 2 ^ (8 * w) = n := by rw [hmod]; simp [hn]
    have hcond : 2 * (n % 2 ^ (8 * w)).toNat < 2 ^ (8 * w) := by
      have : ((n % 2 ^ (8 * w)).toNat : Int) = n := by rw [htn, this]
      omega
    simp only [if_pos hcond]
    rw [htn, this]
  · have heq : n % 2 ^ (8 * w) = n + 2 ^ (8 * w) := by rw [hmod]; simp [hn]
    have hcond : ¬ 2 * (n % 2 ^ (8 * w)).toNat < 2 ^ (8 * w) := by
      have h2 : ((n % 2 ^ (8 * w)).toNat : Int) = n + 2 ^ (8 * w) := by rw [htn, heq]
      omega
    simp only [if_neg hcond]
    rw [htn, heq, hNatPow]
    ring

/-- C7: scenario S1 (dense 2-D `int64` array, one `int64` attribute with
one value per cell, domain `[0,9] x [0,9]`, extents `5 x 5`, row-major
orders) is accepted by `init`, and its derived fields are
`coords_size = 16`, cell sizes 8 (attribute) and 16 (coordinates),
25 cells per tile, 4 tiles, tile domain `[0,1] x [0,1]` and tile sizes
200 and 400 bytes. -/
theorem c7_s1_derived_fields :
    init s1Input = some s1 ∧
    s1.coordsSize = 16 ∧
    s1.cellSize 0 = 8 ∧ s1.cellSize 1 = 16 ∧
    s1.cellNumPerTile = 25 ∧
    s1.tileNum = some 4 ∧
    s1.tileDomain = some [0, 1, 0, 1] ∧
    s1.tileSize 0 = 200 ∧ s1.tileSize 1 = 400 := by
  exact ⟨by decide, by decide, by decide, by decide, by decide, by decide,
         by decide, by decide, by decide⟩

/-- C2 (code bug): `get_tile_pos` dispatches on the tile order but never
returns the dispatched value, so its result is undefined (modelled
`none`) although `get_tile_pos_row` computes the expected grid position:
on S1 the tile `(1,1)` has row-major position `3`, which `get_tile_pos`
fails to return. -/
theorem c2_get_tile_pos_missing_return :
    s1.tileOrder = toRowMajor ∧
    s1.getTilePosRow [1, 1] = some 3 ∧
    s1.getTilePos [1, 1] = none := by
  exact ⟨by decide, by decide, by decide⟩

/-- C10: under a Hilbert cell order the dispatchers `get_cell_pos`,
`cell_num_in_tile_slab` and `cell_num_in_range_slab` fall through to the
sentinel `-1` for every input instead of computing a position. -/
theorem c10_hilbert_sentinel (s : ArraySchema) (coords range : List Int)
    (h : s.cellOrder = coHilbert) :
    s.getCellPos coords = some (-1) ∧
    s.cellNumInTileSlab = some (-1) ∧
    s.cellNumInRangeSlab range = -1 := by
  refine ⟨?_, ?_, ?_⟩ <;>
    simp [ArraySchema.getCellPos, ArraySchema.cellNumInTileSlab,
          ArraySchema.cellNumInRangeSlab, h, coHilbert, coRowMajor, coColMajor]

/-- C10, witness: the Hilbert-ordered schema S4 at concrete inputs. -/
theorem c10_hilbert_sentinel_witness :
    s4.cellOrder = coHilbert ∧
    (s4.getCellPos [0, 0] = some (-1) ∧
     s4.cellNumInTileSlab = some (-1) ∧
     s4.cellNumInRangeSlab [0, 0, 0, 0] = -1) :=
  ⟨by decide, c10_hilbert_sentinel s4 [0, 0] [0, 0, 0, 0] (by decide)⟩

/-- Byte count of a length-prefixed name section, in the composed form
produced by `List.map_map`. -/
theorem sum_map_len_names (l : List (List Nat)) :
    (l.map (List.length ∘ fun a => encInt 4 (a.length : Int) ++ a)).sum
      = 4 * l.length + (l.map List.length).sum := by
  induction l with
  | nil => simp
  | cons a l ih =>
      simp only [List.map_cons, List.sum_cons, Function.comp_apply,
        List.length_append, length_encInt, List.length_cons]
      omega

/-- Byte count of a 4-byte-integer section. -/
theorem sum_map_len_ints (l : List Int) :
    (l.map (List.length ∘ fun v => encInt 4 v)).sum = 4 * l.length := by
  induction l with
  | nil => simp
  | cons v l ih =>
      simp only [List.map_cons, List.sum_cons, Function.comp_apply,
        length_encInt, List.length_cons]
      omega

/-- The spelled-out byte budget of a name section. -/
theorem sum_map_four_add (l : List (List Nat)) :
    (l.map fun a => 4 + a.length).sum = 4 * l.length + (l.map List.length).sum := by
  induction l with
  | nil => simp
  | cons a l ih =>
      simp only [List.map_cons, List.sum_cons, List.length_cons]
      omega

/-- C8: the serializer emits exactly the byte budget computed by
`compute_bin_size` — the final write offset equals the declared buffer
size, with no slack and no overrun. -/
theorem c8_serialize_length_exact (s : ArraySchema) (h : wellFormed s) :
    (serialize s).length = computeBinSize s := by
  obtain ⟨hA1, hA2, hD1, hD2, hName, hAttrLen, hAttrLast, hAttrNm, hDimLen, hDimNm,
    hCap1, hCap2, hCon1, hCon2, hTO, hCO, hTyLen, hTySome, hVLen, hVRange,
    hCLen, hCRange, hCS0, hCS31, hDomLen, hExtOk, hHilb1, hHilb2, hDense,
    hTypeSizes, hCellSizes, hVar, hCnpt, hTDom, hTSizes, hHB⟩ := h
  rcases hext : s.tileExtents with _ | bs
  · simp only [serialize, computeBinSize, hext, List.length_append,
      List.length_flatten, List.map_map, List.length_map, List.length_take,
      length_encInt, List.length_cons, List.length_nil, sum_map_len_names,
      sum_map_len_ints, sum_map_four_add, hAttrLen, hDimLen, hTyLen, hVLen,
      hCLen, hDomLen]
    omega
  · have hbs : bs.length = s.coordsSize.toNat := by
      simpa [extentsLenOk, hext] using hExtOk
    simp only [serialize, computeBinSize, hext, List.length_append,
      List.length_flatten, List.map_map, List.length_map, List.length_take,
      length_encInt, List.length_cons, List.length_nil, sum_map_len_names,
      sum_map_len_ints, sum_map_four_add, hAttrLen, hDimLen, hTyLen, hVLen,
      hCLen, hDomLen, hbs]
    omega

/-- C8, witness: the byte budget matches on the concrete schema S1. -/
theorem c8_serialize_length_exact_witness :
    wellFormed s1 ∧ (serialize s1).length = computeBinSize s1 :=
  ⟨by decide, c8_serialize_length_exact s1 (by decide)⟩

/-- Reading exactly the bytes of a prefix returns it and the remainder. -/
theorem readBytes_exact (n : Nat) (c r : List Nat) (h : c.length = n) :
    readBytes n (c ++ r) = some (c, r) := by
  subst h
  simp [readBytes, List.take_left, List.drop_left]

/-- Reading one byte off a cons cell. -/
theorem readByte_cons (x : Nat) (r : List Nat) : readByte (x :: r) = some (x, r) := rfl

/-- Reading back an encoded in-range integer. -/
theorem readInt_encInt (w : Nat) (n : Int) (rest : List Nat) (hw : 0 < w)
    (hlo : -(2 ^ (8 * w - 1)) ≤ n) (hhi : n < 2 ^ (8 * w - 1)) :
    readInt w (encInt w n ++ rest) = some (n, rest) := by
  rw [readInt, readBytes_exact w (encInt w n) rest (length_encInt w n)]
  simp [decIntLE_encInt w n hw hlo hhi]

theorem guardNonneg_some (n : Int) (h : 0 ≤ n) : guardNonneg n = some () := by
  simp [guardNonneg]
  omega

/-- Reading back an encoded name section. -/
theorem readNames_roundtrip (names : List (List Nat)) (rest : List Nat)
    (h : ∀ nm ∈ names, (nm.length : Int) < 2 ^ 31) :
    readNames names.length
        ((names.map fun nm => encInt 4 nm.length ++ nm).flatten ++ rest)
      = some (names, rest) := by
  induction names with
  | nil => simp [readNames]
  | cons nm names ih =>
      have h1 : readInt 4 (encInt 4 (nm.length : Int) ++
          (nm ++ ((names.map fun a => encInt 4 a.length ++ a).flatten ++ rest)))
          = some ((nm.length : Int),
                  nm ++ ((names.map fun a => encInt 4 a.length ++ a).flatten ++ rest)) := by
        refine readInt_encInt 4 _ _ (by norm_num) (by omega) ?_
        exact_mod_cast h nm (by simp)
      have h3 := ih fun a ha => h a (by simp [ha])
      simp [readNames, List.flatten_cons, List.append_assoc, h1, guardNonneg_some]
      rw [readBytes_exact nm.length nm _ rfl]
      simp [h3]

/-- Reading back an encoded integer section. -/
theorem readInts_roundtrip (vs : List Int) (rest : List Nat)
    (h : ∀ v ∈ vs, -(2 ^ 31) ≤ v ∧ v < 2 ^ 31) :
    readInts vs.length ((vs.map fun v => encInt 4 v).flatten ++ rest)
      = some (vs, rest) := by
  induction vs with
  | nil => simp [readInts]
  | cons v vs ih =>
      have h1 : readInt 4 (encInt 4 v ++
          ((vs.map fun u => encInt 4 u).flatten ++ rest))
          = some (v, (vs.map fun u => encInt 4 u).flatten ++ rest) := by
        refine readInt_encInt 4 _ _ (by norm_num) ?_ ?_
        · exact_mod_cast (h v (by simp)).1
        · exact_mod_cast (h v (by simp)).2
      have h3 := ih fun u hu => h u (by simp [hu])
      simp [readInts, List.flatten_cons, List.append_assoc, h1, h3]

/-- Stage roundtrip: the header section parses back to its fields. -/
theorem parseHeader_enc (name : List Nat) (d kv tob cob : Nat) (cap cs : Int)
    (rest : List Nat)
    (hname : (name.length : Int) < 2 ^ 31)
    (hcap1 : -(2 ^ 63) ≤ cap) (hcap2 : cap < 2 ^ 63)
    (hcs1 : -(2 ^ 31) ≤ cs) (hcs2 : cs < 2 ^ 31) :
    parseHeader (encInt 4 name.length ++ (name ++ ([d] ++ ([kv] ++ ([tob] ++ ([cob] ++
        (encInt 8 cap ++ (encInt 4 cs ++ rest))))))))
      = some (⟨name, d, kv, tob, cob, cap, cs⟩, rest) := by
  have h1 := readInt_encInt 4 (name.length : Int)
    (name ++ d :: kv :: tob :: cob :: (encInt 8 cap ++ (encInt 4 cs ++ rest)))
    (by norm_num) (by omega) (by exact_mod_cast hname)
  have h2 := readBytes_exact name.length name
    (d :: kv :: tob :: cob :: (encInt 8 cap ++ (encInt 4 cs ++ rest))) rfl
  have h3 := readInt_encInt 8 cap (encInt 4 cs ++ rest)
    (by norm_num) (by exact_mod_cast hcap1) (by exact_mod_cast hcap2)
  have h4 := readInt_encInt 4 cs rest
    (by norm_num) (by exact_mod_cast hcs1) (by exact_mod_cast hcs2)
  have hg := guardNonneg_some (name.length : Int) (by omega)
  simp [parseHeader, h1, h2, h3, h4, hg, readByte_cons, Int.toNat_natCast]

/-- Stage roundtrip: the name sections and the domain blob parse back. -/
theorem parseMid_enc (aNum dNum : Nat) (attrs dims : List (List Nat))
    (domSize : Int) (dom : List Nat) (rest : List Nat)
    (ha : attrs.length = aNum) (hd : dims.length = dNum)
    (hA31 : (aNum : Int) < 2 ^ 31) (hD31 : (dNum : Int) < 2 ^ 31)
    (hattrs : ∀ nm ∈ attrs, (nm.length : Int) < 2 ^ 31)
    (hdims : ∀ nm ∈ dims, (nm.length : Int) < 2 ^ 31)
    (hds0 : 0 ≤ domSize) (hds31 : domSize < 2 ^ 31)
    (hdl : dom.length = domSize.toNat) :
    parseMid (encInt 4 aNum ++ ((attrs.map fun a => encInt 4 a.length ++ a).flatten ++
        (encInt 4 dNum ++ ((dims.map fun a => encInt 4 a.length ++ a).flatten ++
        (encInt 4 domSize ++ (dom ++ rest))))))
      = some (⟨aNum, attrs, dNum, dims, dom⟩, rest) := by
  have h1 := readInt_encInt 4 (aNum : Int)
    ((attrs.map fun a => encInt 4 a.length ++ a).flatten ++
      (encInt 4 dNum ++ ((dims.map fun a => encInt 4 a.length ++ a).flatten ++
      (encInt 4 domSize ++ (dom ++ rest)))))
    (by norm_num) (by omega) (by exact_mod_cast hA31)
  have h2 := readNames_roundtrip attrs
    (encInt 4 dNum ++ ((dims.map fun a => encInt 4 a.length ++ a).flatten ++
      (encInt 4 domSize ++ (dom ++ rest)))) hattrs
  have h3 := readInt_encInt 4 (dNum : Int)
    ((dims.map fun a => encInt 4 a.length ++ a).flatten ++
      (encInt 4 domSize ++ (dom ++ rest)))
    (by norm_num) (by omega) (by exact_mod_cast hD31)
  have h4 := readNames_roundtrip dims (encInt 4 domSize ++ (dom ++ rest)) hdims
  have h5 := readInt_encInt 4 domSize (dom ++ rest)
    (by norm_num) (by omega) (by exact_mod_cast hds31)
  have h6 := readBytes_exact domSize.toNat dom rest hdl
  have hg1 := guardNonneg_some (aNum : Int) (by omega)
  have hg2 := guardNonneg_some (dNum : Int) (by omega)
  have hg3 := guardNonneg_some domSize hds0
  rw [ha] at h2
  rw [hd] at h4
  simp [parseMid, h1, h2, h3, h4, h5, h6, hg1, hg2, hg3, Int.toNat_natCast]

/-- Stage roundtrip: absent tile extents, types, value counts and
compressors parse back. -/
theorem parseTail_enc_none (aNum : Nat) (typeBytes : List Nat) (vals : List Int)
    (cmp : List Nat) (rest : List Nat)
    (htb : typeBytes.length = aNum + 1)
    (hvl : vals.length = aNum)
    (hvr : ∀ v ∈ vals, -(2 ^ 31) ≤ v ∧ v < 2 ^ 31)
    (hcl : cmp.length = aNum + 1) :
    parseTail aNum (encInt 4 0 ++ (typeBytes ++
        ((vals.map fun v => encInt 4 v).flatten ++ (cmp ++ rest))))
      = some (⟨none, typeBytes, vals, cmp⟩, rest) := by
  have h1 := readInt_encInt 4 0
    (typeBytes ++ ((vals.map fun v => encInt 4 v).flatten ++ (cmp ++ rest)))
    (by norm_num) (by norm_num) (by norm_num)
  have h2 := readBytes_exact (aNum + 1) typeBytes
    ((vals.map fun v => encInt 4 v).flatten ++ (cmp ++ rest)) htb
  have h3 := readInts_roundtrip vals (cmp ++ rest) hvr
  rw [hvl] at h3
  have h4 := readBytes_exact (aNum + 1) cmp rest hcl
  have hg := guardNonneg_some 0 (by norm_num)
  simp [parseTail, h1, h2, h3, h4, hg]

/-- Stage roundtrip: present tile extents, types, value counts and
compressors parse back. -/
theorem parseTail_enc_some (aNum : Nat) (extSize : Int) (ext : List Nat)
    (typeBytes : List Nat) (vals : List Int) (cmp : List Nat) (rest : List Nat)
    (hes0 : 0 < extSize) (hes31 : extSize < 2 ^ 31)
    (hel : ext.length = extSize.toNat)
    (htb : typeBytes.length = aNum + 1)
    (hvl : vals.length = aNum)
    (hvr : ∀ v ∈ vals, -(2 ^ 31) ≤ v ∧ v < 2 ^ 31)
    (hcl : cmp.length = aNum + 1) :
    parseTail aNum (encInt 4 extSize ++ (ext ++ (typeBytes ++
        ((vals.map fun v => encInt 4 v).flatten ++ (cmp ++ rest)))))
      = some (⟨some ext, typeBytes, vals, cmp⟩, rest) := by
  have h1 := readInt_encInt 4 extSize
    (ext ++ (typeBytes ++ ((vals.map fun v => encInt 4 v).flatten ++ (cmp ++ rest))))
    (by norm_num) (by omega) (by exact_mod_cast hes31)
  have h2 := readBytes_exact extSize.toNat ext
    (typeBytes ++ ((vals.map fun v => encInt 4 v).flatten ++ (cmp ++ rest))) hel
  have h3 := readBytes_exact (aNum + 1) typeBytes
    ((vals.map fun v => encInt 4 v).flatten ++ (cmp ++ rest)) htb
  have h4 := readInts_roundtrip vals (cmp ++ rest) hvr
  rw [hvl] at h4
  have h5 := readBytes_exact (aNum + 1) cmp rest hcl
  have hg := guardNonneg_some extSize (by omega)
  have hne : extSize ≠ 0 := by omega
  simp [parseTail, h1, h2, h3, h4, h5, hg, hne]

/-- A list of length `n + 1` ending in `x` is its first `n` entries plus
`x`: re-appending `__coords` after parsing recovers the attribute
list. -/
theorem take_append_getLast {α : Type} (l : List α) (n : Nat) (x : α)
    (hlen : l.length = n + 1) (hlast : l.getLast? = some x) :
    l.take n ++ [x] = l := by
  have h0 : l ≠ [] := by
    intro e
    rw [e] at hlen
    simp at hlen
  have h1 : l.take n = l.dropLast := by
    rw [List.dropLast_eq_take, hlen]
    simp
  have h2 : l.getLast h0 = x := by
    have h3 := List.getLast?_eq_getLast l h0
    rw [h3] at hlast
    exact Option.some_injective _ hlast
  rw [h1, ← h2, List.dropLast_append_getLast]

/-- Encoding known type slots as wire bytes and decoding them back is the
identity. -/
theorem roundtrip_types (l : List (Option TileDBType))
    (h : ∀ t ∈ l, t.isSome = true) :
    (l.map serTypeByte).map typeOfCode = l := by
  induction l with
  | nil => rfl
  | cons t l ih =>
      have ht : t.isSome = true := h t (by simp)
      obtain ⟨tt, rfl⟩ := Option.isSome_iff_exists.mp ht
      have hrest := ih fun u hu => h u (by simp [hu])
      have hone : typeOfCode (serTypeByte (some tt)) = some tt := by
        cases tt <;> rfl
      simp [hrest, hone]

/-- The `char` cast is the identity on byte-sized codes. -/
theorem map_mod256 (l : List Nat) (h : ∀ c ∈ l, c < 256) :
    l.map (· % 256) = l := by
  induction l with
  | nil => rfl
  | cons c l ih =>
      have hc : c % 256 = c := Nat.mod_eq_of_lt (h c (by simp))
      have hrest := ih fun u hu => h u (by simp [hu])
      simp [hc, hrest]

/-- Reading back the byte written for a `bool` member. -/
theorem boolByte_ne_zero (b : Bool) : (boolByte b != 0) = b := by
  cases b <;> rfl

/-- Deserializing a serialized well-formed schema recovers it exactly:
every primary field parses back and every derived field is recomputed to
the stored value. -/
theorem deserialize_serialize (s : ArraySchema) (h : wellFormed s) :
    deserialize (serialize s) = some s := by
  obtain ⟨hA1, hA2, hD1, hD2, hName, hAttrLen, hAttrLast, hAttrNm, hDimLen, hDimNm,
    hCap1, hCap2, hCon1, hCon2, hTO, hCO, hTyLen, hTySome, hVLen, hVRange,
    hCLen, hCRange, hCS0, hCS31, hDomLen, hExtOk, hHilb1, hHilb2, hDense,
    hTypeSizes, hCellSizes, hVar, hCnpt, hTDom, hTSizes, hHB⟩ := h
  have hTakeAttrsLen : (s.attributes.take s.attributeNum).length = s.attributeNum := by
    rw [List.length_take, hAttrLen]; omega
  have hTakeDimsLen : (s.dimensions.take s.dimNum).length = s.dimNum := by
    rw [List.length_take, hDimLen]; omega
  have hTakeTypes : s.types.take (s.attributeNum + 1) = s.types := by
    rw [← hTyLen, List.take_length]
  have hTakeVals : s.valNum.take s.attributeNum = s.valNum := by
    rw [← hVLen, List.take_length]
  have hTakeCmp : s.compression.take (s.attributeNum + 1) = s.compression := by
    rw [← hCLen, List.take_length]
  have hTakeDims : s.dimensions.take s.dimNum = s.dimensions := by
    rw [← hDimLen, List.take_length]
  have hTakeDom : s.domain.take (2 * s.coordsSize).toNat = s.domain := by
    rw [← hDomLen, List.take_length]
  have hDomTakeLen : (s.domain.take (2 * s.coordsSize).toNat).length
      = (2 * s.coordsSize).toNat := by
    rw [List.length_take, hDomLen]; omega
  have hAttrNmT : ∀ nm ∈ s.attributes.take s.attributeNum, (nm.length : Int) < 2 ^ 31 :=
    fun nm hnm => hAttrNm nm (List.mem_of_mem_take hnm)
  have hDimNmT : ∀ nm ∈ s.dimensions.take s.dimNum, (nm.length : Int) < 2 ^ 31 :=
    fun nm hnm => hDimNm nm (List.mem_of_mem_take hnm)
  have hVRangeT : ∀ v ∈ s.valNum.take s.attributeNum, -(2 ^ 31) ≤ v ∧ v < 2 ^ 31 :=
    fun v hv => hVRange v (List.mem_of_mem_take hv)
  have hTbLen : ((s.types.take (s.attributeNum + 1)).map serTypeByte).length
      = s.attributeNum + 1 := by
    rw [List.length_map, hTakeTypes, hTyLen]
  have hCmLen : ((s.compression.take (s.attributeNum + 1)).map (· % 256)).length
      = s.attributeNum + 1 := by
    rw [List.length_map, hTakeCmp, hCLen]
  have hVlLen : (s.valNum.take s.attributeNum).length = s.attributeNum := by
    rw [hTakeVals, hVLen]
  have hTypesRT : (((s.types.take (s.attributeNum + 1)).map serTypeByte).map typeOfCode)
      = s.types := by
    rw [hTakeTypes]
    exact roundtrip_types _ hTySome
  have hCmpRT : (s.compression.take (s.attributeNum + 1)).map (· % 256)
      = s.compression := by
    rw [hTakeCmp]
    exact map_mod256 _ hCRange
  have hAttrsRT : s.attributes.take s.attributeNum ++ [tiledbCoordsName] = s.attributes :=
    take_append_getLast _ _ _ hAttrLen hAttrLast
  have hTOmod : s.tileOrder % 256 = s.tileOrder := Nat.mod_eq_of_lt hTO
  have hCOmod : s.cellOrder % 256 = s.cellOrder := Nat.mod_eq_of_lt hCO
  simp only [ArraySchema.coordsType] at hCnpt hTDom hHB
  rcases hext : s.tileExtents with _ | bs
  · rw [hext] at hCnpt hTDom
    have hH := parseHeader_enc s.arrayName (boolByte s.dense) (boolByte s.keyValue)
      (s.tileOrder % 256) (s.cellOrder % 256) s.capacity s.consolidationStep
      (encInt 4 s.attributeNum ++
        (((s.attributes.take s.attributeNum).map fun a => encInt 4 a.length ++ a).flatten ++
        (encInt 4 s.dimNum ++
        (((s.dimensions.take s.dimNum).map fun a => encInt 4 a.length ++ a).flatten ++
        (encInt 4 (2 * s.coordsSize) ++
        (s.domain.take (2 * s.coordsSize).toNat ++
        (encInt 4 0 ++
        (((s.types.take (s.attributeNum + 1)).map serTypeByte) ++
        (((s.valNum.take s.attributeNum).map fun v => encInt 4 v).flatten ++
        ((s.compression.take (s.attributeNum + 1)).map (· % 256)))))))))))
      hName (by omega) hCap2 (by omega) hCon2
    have hM := parseMid_enc s.attributeNum s.dimNum
      (s.attributes.take s.attributeNum) (s.dimensions.take s.dimNum)
      (2 * s.coordsSize) (s.domain.take (2 * s.coordsSize).toNat)
      (encInt 4 0 ++
        (((s.types.take (s.attributeNum + 1)).map serTypeByte) ++
        (((s.valNum.take s.attributeNum).map fun v => encInt 4 v).flatten ++
        ((s.compression.take (s.attributeNum + 1)).map (· % 256)))))
      hTakeAttrsLen hTakeDimsLen hA2 hD2 hAttrNmT hDimNmT (by omega) hCS31 hDomTakeLen
    have hT := parseTail_enc_none s.attributeNum
      ((s.types.take (s.attributeNum + 1)).map serTypeByte)
      (s.valNum.take s.attributeNum)
      ((s.compression.take (s.attributeNum + 1)).map (· % 256))
      [] hTbLen hVlLen hVRangeT hCmLen
    simp only [List.append_nil] at hT
    simp only [deserialize, serialize, hext, List.append_assoc, List.nil_append]
    rw [hH]
    simp only [Option.some_bind]
    rw [hM]
    simp only [Option.some_bind]
    rw [hT]
    simp only [Option.some_bind, if_pos rfl, rebuildSchema, hTypesRT, hCmpRT,
      hAttrsRT, boolByte_ne_zero, hTOmod, hCOmod, hTakeVals, hTakeDims, hTakeDom]
    rw [hCnpt]
    simp only [Option.some_bind]
    rw [← hTypeSizes, ← hCellSizes, ← hVar, ← hTSizes]
    rw [← hTDom, ← hHB]
    rw [← hext]
    simp
  · have hel : bs.length = s.coordsSize.toNat := by
      simpa [extentsLenOk, hext] using hExtOk
    have hTakeExt : bs.take s.coordsSize.toNat = bs := by
      rw [← hel, List.take_length]
    rw [hext] at hCnpt hTDom
    have hH := parseHeader_enc s.arrayName (boolByte s.dense) (boolByte s.keyValue)
      (s.tileOrder % 256) (s.cellOrder % 256) s.capacity s.consolidationStep
      (encInt 4 s.attributeNum ++
        (((s.attributes.take s.attributeNum).map fun a => encInt 4 a.length ++ a).flatten ++
        (encInt 4 s.dimNum ++
        (((s.dimensions.take s.dimNum).map fun a => encInt 4 a.length ++ a).flatten ++
        (encInt 4 (2 * s.coordsSize) ++
        (s.domain.take (2 * s.coordsSize).toNat ++
        (encInt 4 s.coordsSize ++
        (bs.take s.coordsSize.toNat ++
        (((s.types.take (s.attributeNum + 1)).map serTypeByte) ++
        (((s.valNum.take s.attributeNum).map fun v => encInt 4 v).flatten ++
        ((s.compression.take (s.attributeNum + 1)).map (· % 256))))))))))))
      hName (by omega) hCap2 (by omega) hCon2
    have hM := parseMid_enc s.attributeNum s.dimNum
      (s.attributes.take s.attributeNum) (s.dimensions.take s.dimNum)
      (2 * s.coordsSize) (s.domain.take (2 * s.coordsSize).toNat)
      (encInt 4 s.coordsSize ++
        (bs.take s.coordsSize.toNat ++
        (((s.types.take (s.attributeNum + 1)).map serTypeByte) ++
        (((s.valNum.take s.attributeNum).map fun v => encInt 4 v).flatten ++
        ((s.compression.take (s.attributeNum + 1)).map (· % 256))))))
      hTakeAttrsLen hTakeDimsLen hA2 hD2 hAttrNmT hDimNmT (by omega) hCS31 hDomTakeLen
    have hT := parseTail_enc_some s.attributeNum s.coordsSize bs
      ((s.types.take (s.attributeNum + 1)).map serTypeByte)
      (s.valNum.take s.attributeNum)
      ((s.compression.take (s.attributeNum + 1)).map (· % 256))
      [] hCS0 (by omega) hel hTbLen hVlLen hVRangeT hCmLen
    simp only [List.append_nil] at hT
    rw [← hTakeExt] at hT
    simp only [deserialize, serialize, hext, List.append_assoc]
    rw [hH]
    simp only [Option.some_bind]
    rw [hM]
    simp only [Option.some_bind]
    rw [hT]
    simp only [Option.some_bind, if_pos rfl, rebuildSchema, hTypesRT, hCmpRT,
      hAttrsRT, boolByte_ne_zero, hTOmod, hCOmod, hTakeVals, hTakeDims, hTakeDom,
      hTakeExt]
    rw [hCnpt]
    simp only [Option.some_bind]
    rw [← hTypeSizes, ← hCellSizes, ← hVar, ← hTSizes]
    rw [← hTDom, ← hHB]
    rw [← hext]
    simp

/-- C1: for every valid schema, deserializing the serialized buffer
yields a schema equal field-for-field (primaries parsed back, the
synthetic `__coords` entry re-appended, derived fields recomputed to the
same values), and re-serializing the result reproduces the original byte
buffer. -/
theorem c1_serialize_roundtrip (s : ArraySchema) (h : wellFormed s) :
    deserialize (serialize s) = some s ∧
    (deserialize (serialize s)).map serialize = some (serialize s) := by
  have h1 := deserialize_serialize s h
  exact ⟨h1, by rw [h1]; rfl⟩

/-- C1, witness: the round trip on the concrete schema S1. -/
theorem c1_serialize_roundtrip_witness :
    wellFormed s1 ∧
    (deserialize (serialize s1) = some s1 ∧
     (deserialize (serialize s1)).map serialize = some (serialize s1)) :=
  ⟨by decide, c1_serialize_roundtrip s1 (by decide)⟩

/-- The row-major position unfolds as a most-significant-first radix
expansion: the head coordinate is weighted by the product of the
remaining extents. -/
theorem cellPosRowAux_cons (e : Int) (es : List Int) (c : Int) (cs : List Int) :
    cellPosRowAux (e :: es) (c :: cs) = c * es.prod + cellPosRowAux es cs := by
  simp [cellPosRowAux, cellOffsetsRow, dotL]

/-- Dot product against a uniformly scaled vector. -/
theorem dotL_map_mul (k : Int) (xs ys : List Int) :
    dotL xs (ys.map (k * ·)) = k * dotL xs ys := by
  induction xs generalizing ys with
  | nil => simp [dotL]
  | cons x xs ih =>
      cases ys with
      | nil => simp [dotL]
      | cons y ys =>
          simp [dotL, List.zipWith_cons_cons] at *
          rw [ih]
          ring

/-- The column-major position unfolds as a least-significant-first radix
expansion. -/
theorem cellPosColAux_cons (e : Int) (es : List Int) (c : Int) (cs : List Int) :
    cellPosColAux (e :: es) (c :: cs) = c + e * cellPosColAux es cs := by
  simp [cellPosColAux, cellOffsetsCol, dotL, List.zipWith_cons_cons]
  have := dotL_map_mul e cs (cellOffsetsCol es)
  simp [dotL] at this
  rw [this]

/-- In-tile coordinate vectors have one coordinate per extent. -/
theorem inTileB_length (es cs : List Int) (h : inTileB es cs = true) :
    es.length = cs.length := by
  induction es generalizing cs with
  | nil => cases cs with
    | nil => rfl
    | cons c cs => simp [inTileB] at h
  | cons e es ih =>
      cases cs with
      | nil => simp [inTileB] at h
      | cons c cs =>
          simp [inTileB] at h
          simp [ih cs h.2]

/-- The position of an in-tile coordinate vector is a nonnegative number
below the tile's cell count (and the cell count is positive). -/
theorem cellPosRowAux_bounds (es cs : List Int) (h : inTileB es cs = true) :
    0 < es.prod ∧ 0 ≤ cellPosRowAux es cs ∧ cellPosRowAux es cs < es.prod := by
  induction es generalizing cs with
  | nil =>
      cases cs with
      | nil => simp [cellPosRowAux, dotL, cellOffsetsRow]
      | cons c cs => simp [inTileB] at h
  | cons e es ih =>
      cases cs with
      | nil => simp [inTileB] at h
      | cons c cs =>
          simp only [inTileB, Bool.and_eq_true, decide_eq_true_eq] at h
          obtain ⟨⟨hc0, hce⟩, hrest⟩ := h
          obtain ⟨hP, hr0, hrP⟩ := ih cs hrest
          rw [cellPosRowAux_cons]
          refine ⟨?_, ?_, ?_⟩
          · simp only [List.prod_cons]
            exact mul_pos (by omega) hP
          · positivity
          · simp only [List.prod_cons]
            nlinarith

/-- Row-major positions of two coordinates in one tile compare exactly as
the coordinates compare lexicographically with the first dimension most
significant. -/
theorem cellPosRowAux_lt_iff (es c1 c2 : List Int)
    (h1 : inTileB es c1 = true) (h2 : inTileB es c2 = true) :
    cellPosRowAux es c1 < cellPosRowAux es c2 ↔ lexLt c1 c2 = true := by
  induction es generalizing c1 c2 with
  | nil =>
      cases c1 with
      | cons a xs => simp [inTileB] at h1
      | nil =>
          cases c2 with
          | cons b ys => simp [inTileB] at h2
          | nil => simp [cellPosRowAux, dotL, cellOffsetsRow, lexLt]
  | cons e es ih =>
      cases c1 with
      | nil => simp [inTileB] at h1
      | cons a xs =>
          cases c2 with
          | nil => simp [inTileB] at h2
          | cons b ys =>
              simp only [inTileB, Bool.and_eq_true, decide_eq_true_eq] at h1 h2
              obtain ⟨⟨ha0, hae⟩, hx⟩ := h1
              obtain ⟨⟨hb0, hbe⟩, hy⟩ := h2
              obtain ⟨hP, hx0, hxP⟩ := cellPosRowAux_bounds es xs hx
              obtain ⟨_, hy0, hyP⟩ := cellPosRowAux_bounds es ys hy
              rw [cellPosRowAux_cons, cellPosRowAux_cons]
              rcases lt_trichotomy a b with hab | hab | hab
              · constructor
                · intro _
                  simp [lexLt, hab]
                · intro _
                  nlinarith
              · subst hab
                constructor
                · intro hlt
                  have : cellPosRowAux es xs < cellPosRowAux es ys := by omega
                  simp [lexLt, (ih xs ys hx hy).mp this]
                · intro hlex
                  simp only [lexLt, Bool.or_eq_true, decide_eq_true_eq,
                    Bool.and_eq_true] at hlex
                  rcases hlex with hlt | ⟨_, hlex⟩
                  · omega
                  · have := (ih xs ys hx hy).mpr hlex
                    omega
              · constructor
                · intro hlt
                  exfalso
                  nlinarith
                · intro hlex
                  simp only [lexLt, Bool.or_eq_true, decide_eq_true_eq,
                    Bool.and_eq_true] at hlex
                  rcases hlex with hlt | ⟨heq, _⟩
                  · omega
                  · omega

/-- Appending one least-significant digit to a row-major expansion. -/
theorem cellPosRowAux_snoc (u v : List Int) (e c : Int) (hlen : u.length = v.length) :
    cellPosRowAux (u ++ [e]) (v ++ [c]) = cellPosRowAux u v * e + c := by
  induction u generalizing v with
  | nil =>
      cases v with
      | cons d v => simp at hlen
      | nil => simp [cellPosRowAux, dotL, cellOffsetsRow]
  | cons f u ih =>
      cases v with
      | nil => simp at hlen
      | cons d v =>
          simp only [List.length_cons, Nat.add_right_cancel_iff] at hlen
          simp only [List.cons_append, cellPosRowAux_cons, ih v hlen,
            List.prod_append, List.prod_cons, List.prod_nil]
          ring

/-- The column-major position is the row-major position of the reversed
coordinates against the reversed extents. -/
theorem cellPosColAux_eq_reverse (es cs : List Int) (hlen : es.length = cs.length) :
    cellPosColAux es cs = cellPosRowAux es.reverse cs.reverse := by
  induction es generalizing cs with
  | nil =>
      cases cs with
      | cons c cs => simp at hlen
      | nil => simp [cellPosColAux, cellPosRowAux, dotL, cellOffsetsRow, cellOffsetsCol]
  | cons e es ih =>
      cases cs with
      | nil => simp at hlen
      | cons c cs =>
          simp only [List.length_cons, Nat.add_right_cancel_iff] at hlen
          rw [cellPosColAux_cons, List.reverse_cons, List.reverse_cons,
            cellPosRowAux_snoc es.reverse cs.reverse e c (by simp [hlen]),
            ih cs hlen]
          ring

/-- Tile-bound checks survive reversal: appending one bound pair. -/
theorem inTileB_snoc (es cs : List Int) (e c : Int) (hlen : es.length = cs.length) :
    inTileB (es ++ [e]) (cs ++ [c])
      = (inTileB es cs && (decide (0 ≤ c) && decide (c < e))) := by
  induction es generalizing cs with
  | nil =>
      cases cs with
      | cons d cs => simp at hlen
      | nil => simp [inTileB]
  | cons f es ih =>
      cases cs with
      | nil => simp at hlen
      | cons d cs =>
          simp only [List.length_cons, Nat.add_right_cancel_iff] at hlen
          show ((decide (0 ≤ d) && decide (d < f)) && inTileB (es ++ [e]) (cs ++ [c]))
              = (((decide (0 ≤ d) && decide (d < f)) && inTileB es cs)
                  && (decide (0 ≤ c) && decide (c < e)))
          rw [ih cs hlen, ← Bool.and_assoc]

/-- Tile-bound checks survive reversal. -/
theorem inTileB_reverse (es cs : List Int) (h : inTileB es cs = true) :
    inTileB es.reverse cs.reverse = true := by
  induction es generalizing cs with
  | nil =>
      cases cs with
      | cons c cs => simp [inTileB] at h
      | nil => simpa using h
  | cons e es ih =>
      cases cs with
      | nil => simp [inTileB] at h
      | cons c cs =>
          simp only [inTileB, Bool.and_eq_true, decide_eq_true_eq] at h
          obtain ⟨⟨hc0, hce⟩, hrest⟩ := h
          have hlen := inTileB_length es cs hrest
          rw [List.reverse_cons, List.reverse_cons,
            inTileB_snoc es.reverse cs.reverse e c (by simp [hlen])]
          simp [ih cs hrest, hc0, hce]

/-- Column-major positions of two coordinates in one tile compare exactly
as the coordinates compare lexicographically with the last dimension
most significant. -/
theorem cellPosColAux_lt_iff (es c1 c2 : List Int)
    (h1 : inTileB es c1 = true) (h2 : inTileB es c2 = true) :
    cellPosColAux es c1 < cellPosColAux es c2 ↔ revLexLt c1 c2 = true := by
  rw [cellPosColAux_eq_reverse es c1 (inTileB_length es c1 h1),
    cellPosColAux_eq_reverse es c2 (inTileB_length es c2 h2), revLexLt]
  exact cellPosRowAux_lt_iff es.reverse c1.reverse c2.reverse
    (inTileB_reverse es c1 h1) (inTileB_reverse es c2 h2)

/-- C3, counterexample: under S1's row-major cell order the in-tile
coordinates `(0,4)` and `(1,0)` have positions 4 and 5, so
`cell_pos((0,4)) < cell_pos((1,0))`, yet in the order that treats the
last dimension as most significant `(0,4)` does not precede `(1,0)` —
the claimed equivalence fails. -/
theorem c3_lex_direction_counterexample :
    s1.cellOrder = coRowMajor ∧
    s1.tileExtentsInt = some [5, 5] ∧
    inTileB [5, 5] [0, 4] = true ∧
    inTileB [5, 5] [1, 0] = true ∧
    s1.getCellPos [0, 4] = some 4 ∧
    s1.getCellPos [1, 0] = some 5 ∧
    ((4 : Int) < 5) ∧
    revLexLt [0, 4] [1, 0] = false := by
  exact ⟨by decide, by decide, by decide, by decide, by decide, by decide,
         by decide, by decide⟩

/-- C3, amended: for coordinates inside one tile, row-major cell
positions compare as the lexicographic order with the FIRST dimension
most significant (the last dimension varies fastest), and column-major
positions compare as the lexicographic order with the LAST dimension
most significant. -/
theorem c3_cell_pos_monotonicity_amended (s : ArraySchema) (es c1 c2 : List Int)
    (hext : s.tileExtentsInt = some es)
    (h1 : inTileB es c1 = true) (h2 : inTileB es c2 = true) :
    (s.cellOrder = coRowMajor →
      s.getCellPos c1 = some (cellPosRowAux es c1) ∧
      s.getCellPos c2 = some (cellPosRowAux es c2) ∧
      (cellPosRowAux es c1 < cellPosRowAux es c2 ↔ lexLt c1 c2 = true)) ∧
    (s.cellOrder = coColMajor →
      s.getCellPos c1 = some (cellPosColAux es c1) ∧
      s.getCellPos c2 = some (cellPosColAux es c2) ∧
      (cellPosColAux es c1 < cellPosColAux es c2 ↔ revLexLt c1 c2 = true)) := by
  constructor
  · intro hco
    refine ⟨?_, ?_, cellPosRowAux_lt_iff es c1 c2 h1 h2⟩ <;>
      simp [ArraySchema.getCellPos, ArraySchema.getCellPosRow, hco, hext]
  · intro hco
    have hco' : s.cellOrder ≠ coRowMajor := by
      rw [hco]
      decide
    refine ⟨?_, ?_, cellPosColAux_lt_iff es c1 c2 h1 h2⟩ <;>
      simp [ArraySchema.getCellPos, ArraySchema.getCellPosCol, hco, hco', hext,
        coColMajor, coRowMajor]

/-- C3, witness: the amended ordering on S1 at the coordinates of the
counterexample. -/
theorem c3_cell_pos_monotonicity_amended_witness :
    (s1.tileExtentsInt = some [5, 5] ∧
     inTileB [5, 5] [0, 4] = true ∧ inTileB [5, 5] [1, 0] = true) ∧
    ((s1.cellOrder = coRowMajor →
      s1.getCellPos [0, 4] = some (cellPosRowAux [5, 5] [0, 4]) ∧
      s1.getCellPos [1, 0] = some (cellPosRowAux [5, 5] [1, 0]) ∧
      (cellPosRowAux [5, 5] [0, 4] < cellPosRowAux [5, 5] [1, 0] ↔
        lexLt [0, 4] [1, 0] = true)) ∧
     (s1.cellOrder = coColMajor →
      s1.getCellPos [0, 4] = some (cellPosColAux [5, 5] [0, 4]) ∧
      s1.getCellPos [1, 0] = some (cellPosColAux [5, 5] [1, 0]) ∧
      (cellPosColAux [5, 5] [0, 4] < cellPosColAux [5, 5] [1, 0] ↔
        revLexLt [0, 4] [1, 0] = true))) :=
  ⟨⟨by decide, by decide, by decide⟩,
   c3_cell_pos_monotonicity_amended s1 [5, 5] [0, 4] [1, 0]
     (by decide) (by decide) (by decide)⟩

/-- If no dimension of the mbr/range intersection differs from the mbr,
the intersection equals the mbr. -/
theorem mbrOverlapRange_eq_of_not_differs (range mbr : List Int)
    (hlen : range.length = mbr.length) (heven : mbr.length % 2 = 0)
    (h : overlapDiffers (mbrOverlapRange range mbr) mbr = false) :
    mbrOverlapRange range mbr = mbr := by
  induction range, mbr using mbrOverlapRange.induct with
  | case1 rlo rhi rs mlo mhi ms ih =>
      simp only [mbrOverlapRange, overlapDiffers, Bool.or_eq_false_iff,
        decide_eq_false_iff_not, Decidable.not_not] at h
      obtain ⟨⟨hlo, hhi⟩, hrest⟩ := h
      simp only [List.length_cons] at hlen heven
      have := ih (by omega) (by omega) hrest
      simp [mbrOverlapRange, hlo, hhi, this]
  | case2 r m hno =>
      rcases m with _ | ⟨mlo, _ | ⟨mhi, ms⟩⟩
      · have hr : r = [] := by
          simp only [List.length_nil] at hlen
          exact List.eq_nil_of_length_eq_zero hlen
        subst hr
        rfl
      · simp only [List.length_cons, List.length_nil] at heven
        omega
      · rcases r with _ | ⟨rlo, _ | ⟨rhi, rs⟩⟩
        · simp only [List.length_nil, List.length_cons] at hlen
          omega
        · simp only [List.length_cons, List.length_nil] at hlen
          omega
        · exact (hno rlo rhi rs mlo mhi ms rfl rfl).elim

/-- The tile-local overlap has one bound pair per dimension. -/
theorem tileOverlapRange_length (dom ext tc range : List Int)
    (h1 : dom.length = 2 * ext.length) (h2 : tc.length = ext.length)
    (h3 : range.length = 2 * ext.length) :
    (tileOverlapRange dom ext tc range).length = 2 * ext.length := by
  induction dom, ext, tc, range using tileOverlapRange.induct with
  | case1 lo hi ds e es t ts rlo rhi rs ih =>
      simp only [List.length_cons] at h1 h2 h3 ⊢
      have := ih (by omega) (by omega) (by omega)
      simp only [tileOverlapRange, List.length_cons]
      omega
  | case2 dom ext tc range hno =>
      rcases ext with _ | ⟨e, es⟩
      · rcases dom with _ | ⟨lo, _ | ⟨hi, ds⟩⟩ <;> rfl
      · exfalso
        simp only [List.length_cons] at h1 h2 h3
        rcases dom with _ | ⟨lo, _ | ⟨hi, ds⟩⟩
        · simp only [List.length_nil] at h1
          omega
        · simp only [List.length_cons, List.length_nil] at h1
          omega
        · rcases tc with _ | ⟨t, ts⟩
          · simp only [List.length_nil] at h2
            omega
          · rcases range with _ | ⟨rlo, _ | ⟨rhi, rs⟩⟩
            · simp only [List.length_nil] at h3
              omega
            · simp only [List.length_cons, List.length_nil] at h3
              omega
            · exact hno lo hi ds e es t ts rlo rhi rs rfl rfl rfl rfl

/-- If no dimension of a tile-local overlap differs from the full tile,
the overlap is the full tile. -/
theorem tileOverlap_eq_full_of_not_differs (ext ov : List Int)
    (hlen : ov.length = 2 * ext.length)
    (h : tileOverlapDiffers ov ext = false) :
    ov = fullTileLocal ext := by
  induction ext generalizing ov with
  | nil =>
      have hov : ov = [] := by
        refine List.eq_nil_of_length_eq_zero ?_
        simpa using hlen
      subst hov
      rfl
  | cons e es ih =>
      rcases ov with _ | ⟨o1, _ | ⟨o2, os⟩⟩
      · exfalso
        simp only [List.length_nil, List.length_cons] at hlen
        omega
      · exfalso
        simp only [List.length_cons, List.length_nil] at hlen
        omega
      · simp only [List.length_cons] at hlen
        simp only [tileOverlapDiffers, Bool.or_eq_false_iff,
          decide_eq_false_iff_not, Decidable.not_not] at h
        obtain ⟨⟨hz, he⟩, hrest⟩ := h
        simp [fullTileLocal, hz, he, ih os (by omega) hrest]

/-- C6: both overlap routines are deterministic (pure functions of their
inputs); an mbr overlap code of 1 means the overlap equals the mbr
elementwise; the mbr code 3 is produced only under a non-Hilbert cell
order; and for the tile variant on a valid schema (Hilbert exclusivity:
a Hilbert cell order has no tile extents, so the tile variant only runs
with a non-Hilbert cell order) a code of 1 means the overlap is the full
tile `[0, extent_i - 1]` in tile-local coordinates. -/
theorem c6_overlap_codes (s : ArraySchema) (range mbr tc : List Int)
    (hrl : range.length = 2 * s.dimNum) (hml : mbr.length = 2 * s.dimNum)
    (hexcl : s.cellOrder = coHilbert → s.tileExtents = none) :
    s.computeMbrRangeOverlap range mbr = s.computeMbrRangeOverlap range mbr ∧
    s.computeTileRangeOverlap range tc = s.computeTileRangeOverlap range tc ∧
    ((s.computeMbrRangeOverlap range mbr).2 = 1 →
      (s.computeMbrRangeOverlap range mbr).1 = mbr) ∧
    ((s.computeMbrRangeOverlap range mbr).2 = 3 → s.cellOrder ≠ coHilbert) ∧
    (∀ dom ext, s.domainInt = some dom → s.tileExtentsInt = some ext →
      ext.length = s.dimNum → dom.length = 2 * s.dimNum → tc.length = s.dimNum →
      s.cellOrder ≠ coHilbert ∧
      (∀ ov code, s.computeTileRangeOverlap range tc = some (ov, code) →
        (code = 1 → ov = fullTileLocal ext))) := by
  refine ⟨rfl, rfl, ?_, ?_, ?_⟩
  · intro h
    by_cases hdif : overlapDiffers (mbrOverlapRange range mbr) mbr = false
    · have hfst : (s.computeMbrRangeOverlap range mbr).1 = mbrOverlapRange range mbr := rfl
      rw [hfst]
      exact mbrOverlapRange_eq_of_not_differs range mbr (by omega) (by omega) hdif
    · exfalso
      simp only [Bool.not_eq_false] at hdif
      have hcode : (s.computeMbrRangeOverlap range mbr).2 ≠ 1 := by
        simp only [ArraySchema.computeMbrRangeOverlap]
        split_ifs <;> simp_all
      exact hcode h
  · intro h
    by_contra hch
    have hcode : (s.computeMbrRangeOverlap range mbr).2 ≠ 3 := by
      simp only [ArraySchema.computeMbrRangeOverlap]
      split_ifs <;> simp_all
    exact hcode h
  · intro dom ext hdom hext hel hdl htl
    have hnh : s.cellOrder ≠ coHilbert := by
      intro hc
      have hnone := hexcl hc
      rw [ArraySchema.tileExtentsInt] at hext
      rw [hnone] at hext
      simp at hext
    refine ⟨hnh, ?_⟩
    intro ov code hcomp hcode
    rw [ArraySchema.computeTileRangeOverlap] at hcomp
    rw [hdom, hext] at hcomp
    simp only [Option.some_inj, Prod.mk.injEq] at hcomp
    obtain ⟨hov, hcodeEq⟩ := hcomp
    subst hov
    subst hcode
    refine tileOverlap_eq_full_of_not_differs ext _
      (tileOverlapRange_length dom ext tc range (by omega) (by omega) (by omega)) ?_
    by_contra hdif
    simp only [Bool.not_eq_false] at hdif
    split_ifs at hcodeEq <;> simp_all

/-- C6, witness: the overlap code contract on S1 at a concrete range and
mbr. -/
theorem c6_overlap_codes_witness :
    ((([0, 9, 0, 9] : List Int).length = 2 * s1.dimNum) ∧
     (([1, 2, 1, 2] : List Int).length = 2 * s1.dimNum) ∧
     (s1.cellOrder = coHilbert → s1.tileExtents = none)) ∧
    (s1.computeMbrRangeOverlap [0, 9, 0, 9] [1, 2, 1, 2]
        = s1.computeMbrRangeOverlap [0, 9, 0, 9] [1, 2, 1, 2] ∧
     s1.computeTileRangeOverlap [0, 9, 0, 9] [0, 0]
        = s1.computeTileRangeOverlap [0, 9, 0, 9] [0, 0] ∧
     ((s1.computeMbrRangeOverlap [0, 9, 0, 9] [1, 2, 1, 2]).2 = 1 →
       (s1.computeMbrRangeOverlap [0, 9, 0, 9] [1, 2, 1, 2]).1 = [1, 2, 1, 2]) ∧
     ((s1.computeMbrRangeOverlap [0, 9, 0, 9] [1, 2, 1, 2]).2 = 3 →
       s1.cellOrder ≠ coHilbert) ∧
     (∀ dom ext, s1.domainInt = some dom → s1.tileExtentsInt = some ext →
       ext.length = s1.dimNum → dom.length = 2 * s1.dimNum →
       ([0, 0] : List Int).length = s1.dimNum →
       s1.cellOrder ≠ coHilbert ∧
       (∀ ov code, s1.computeTileRangeOverlap [0, 9, 0, 9] [0, 0] = some (ov, code) →
         (code = 1 → ov = fullTileLocal ext)))) :=
  ⟨⟨by decide, by decide, by intro hc; exact absurd hc (by decide)⟩,
   c6_overlap_codes s1 [0, 9, 0, 9] [1, 2, 1, 2] [0, 0]
     (by decide) (by decide) (by intro hc; exact absurd hc (by decide))⟩

/-- Domain membership forces one coordinate per dimension. -/
theorem inDomB_length (dom : List (Int × Int)) (cs : List Int)
    (h : inDomB dom cs = true) : dom.length = cs.length := by
  induction dom generalizing cs with
  | nil =>
      cases cs with
      | nil => rfl
      | cons c cs => simp [inDomB] at h
  | cons d ds ih =>
      obtain ⟨lo, hi⟩ := d
      cases cs with
      | nil => simp [inDomB] at h
      | cons c cs =>
          simp only [inDomB, Bool.and_eq_true] at h
          simp [ih cs h.2]

/-- The vector of lower bounds is in the domain when every dimension has
`lo <= hi`. -/
theorem inDomB_lows (dom : List (Int × Int)) (h : ∀ p ∈ dom, p.1 ≤ p.2) :
    inDomB dom (lows dom) = true := by
  induction dom with
  | nil => rfl
  | cons d ds ih =>
      obtain ⟨lo, hi⟩ := d
      have h1 := h (lo, hi) (by simp)
      simp only [lows, List.map_cons, inDomB, Bool.and_eq_true, decide_eq_true_eq]
      exact ⟨⟨le_refl lo, h1⟩, ih fun p hp => h p (by simp [hp])⟩

/-- The lower-bound vector has rank 0. -/
theorem rankC_lows (dom : List (Int × Int)) : rankC dom (lows dom) = 0 := by
  induction dom with
  | nil => rfl
  | cons d ds ih =>
      obtain ⟨lo, hi⟩ := d
      simp [lows, rankC] at ih ⊢
      simp [ih]

/-- The rank of an in-domain vector lies in `[0, sizeProd)` (and the size
is positive). -/
theorem rankC_bounds (dom : List (Int × Int)) (cs : List Int)
    (h : inDomB dom cs = true) :
    0 < sizeProd dom ∧ 0 ≤ rankC dom cs ∧ rankC dom cs < sizeProd dom := by
  induction dom generalizing cs with
  | nil =>
      cases cs with
      | nil => simp [sizeProd, rankC]
      | cons c cs => simp [inDomB] at h
  | cons d ds ih =>
      obtain ⟨lo, hi⟩ := d
      cases cs with
      | nil => simp [inDomB] at h
      | cons c cs =>
          simp only [inDomB, Bool.and_eq_true, decide_eq_true_eq] at h
          obtain ⟨⟨hlo, hhi⟩, hrest⟩ := h
          obtain ⟨hP, hr0, hrP⟩ := ih cs hrest
          simp only [sizeProd, List.map_cons, List.prod_cons, rankC] at *
          refine ⟨by nlinarith, by nlinarith, by nlinarith⟩

/-- Rank determines the coordinates inside the domain. -/
theorem rankC_injective (dom : List (Int × Int)) (c1 c2 : List Int)
    (h1 : inDomB dom c1 = true) (h2 : inDomB dom c2 = true)
    (h : rankC dom c1 = rankC dom c2) : c1 = c2 := by
  induction dom generalizing c1 c2 with
  | nil =>
      cases c1 with
      | cons a xs => simp [inDomB] at h1
      | nil =>
          cases c2 with
          | cons b ys => simp [inDomB] at h2
          | nil => rfl
  | cons d ds ih =>
      obtain ⟨lo, hi⟩ := d
      cases c1 with
      | nil => simp [inDomB] at h1
      | cons a xs =>
          cases c2 with
          | nil => simp [inDomB] at h2
          | cons b ys =>
              simp only [inDomB, Bool.and_eq_true, decide_eq_true_eq] at h1 h2
              obtain ⟨⟨ha1, ha2⟩, hx⟩ := h1
              obtain ⟨⟨hb1, hb2⟩, hy⟩ := h2
              obtain ⟨hPx, hx0, hxP⟩ := rankC_bounds ds xs hx
              obtain ⟨_, hy0, hyP⟩ := rankC_bounds ds ys hy
              simp only [rankC] at h
              have hsize : 0 < hi - lo + 1 := by omega
              have heq : rankC ds xs = rankC ds ys := by nlinarith
              have hcoord : a = b := by nlinarith
              simp [hcoord, ih xs ys hx hy heq]

/-- One carry step increments the rank of any in-domain coordinate vector
of a non-empty domain. -/
theorem rankC_incCarry (dom : List (Int × Int)) (cs : List Int)
    (hne : dom ≠ []) (h : inDomB dom cs = true) :
    rankC dom (incCarry dom cs) = rankC dom cs + 1 := by
  induction dom generalizing cs with
  | nil => exact absurd rfl hne
  | cons d ds ih =>
      obtain ⟨lo, hi⟩ := d
      cases cs with
      | nil => simp [inDomB] at h
      | cons c cs =>
          simp only [inDomB, Bool.and_eq_true, decide_eq_true_eq] at h
          obtain ⟨⟨hlo, hhi⟩, hrest⟩ := h
          by_cases hcarry : c + 1 > hi ∧ cs ≠ []
          · obtain ⟨hover, hcs⟩ := hcarry
            have hds : ds ≠ [] := by
              intro e
              subst e
              cases cs with
              | nil => exact hcs rfl
              | cons x xs => simp [inDomB] at hrest
            simp only [incCarry, if_pos (And.intro hover hcs), rankC]
            rw [ih cs hds hrest]
            have hc : c = hi := by omega
            subst hc
            ring
          · simp only [incCarry, if_neg hcarry, rankC]
            ring

/-- One carry step stays inside the domain as long as the next rank still
exists. -/
theorem inDomB_incCarry (dom : List (Int × Int)) (cs : List Int)
    (h : inDomB dom cs = true)
    (hlt : rankC dom cs + 1 < sizeProd dom) :
    inDomB dom (incCarry dom cs) = true := by
  induction dom generalizing cs with
  | nil =>
      cases cs with
      | nil => simp [rankC, sizeProd] at hlt
      | cons c cs => simp [inDomB] at h
  | cons d ds ih =>
      obtain ⟨lo, hi⟩ := d
      cases cs with
      | nil => simp [inDomB] at h
      | cons c cs =>
          simp only [inDomB, Bool.and_eq_true, decide_eq_true_eq] at h
          obtain ⟨⟨hlo, hhi⟩, hrest⟩ := h
          obtain ⟨hP, hr0, hrP⟩ := rankC_bounds ds cs hrest
          simp only [rankC, sizeProd, List.map_cons, List.prod_cons] at hlt
          by_cases hcarry : c + 1 > hi ∧ cs ≠ []
          · obtain ⟨hover, hcs⟩ := hcarry
            have hds : ds ≠ [] := by
              intro e
              subst e
              cases cs with
              | nil => exact hcs rfl
              | cons x xs => simp [inDomB] at hrest
            have hc : c = hi := by omega
            subst hc
            have hofold : (List.map (fun p => p.2 - p.1 + 1) ds).prod = sizeProd ds := rfl
            rw [hofold] at hlt
            have hnext : rankC ds cs + 1 < sizeProd ds := by
              by_contra hge
              push_neg at hge
              have h1 : rankC ds cs = sizeProd ds - 1 := by omega
              rw [h1] at hlt
              nlinarith
            simp only [incCarry, if_pos (And.intro hover hcs), inDomB,
              Bool.and_eq_true, decide_eq_true_eq]
            exact ⟨⟨le_refl lo, by omega⟩, ih cs hrest hnext⟩
          · simp only [incCarry, if_neg hcarry, inDomB, Bool.and_eq_true,
              decide_eq_true_eq]
            refine ⟨⟨by omega, ?_⟩, hrest⟩
            by_cases hcs : cs = []
            · subst hcs
              have hds : ds = [] := by
                cases ds with
                | nil => rfl
                | cons e es => simp [inDomB] at hrest
              subst hds
              simp [rankC, sizeProd] at hlt
              omega
            · have : ¬ (c + 1 > hi) := by
                intro hover
                exact hcarry ⟨hover, hcs⟩
              omega

/-- The maximal coordinate vector has the last rank. -/
theorem rankC_highs (dom : List (Int × Int)) (h : ∀ p ∈ dom, p.1 ≤ p.2) :
    rankC dom (highs dom) = sizeProd dom - 1 := by
  induction dom with
  | nil => simp [rankC, highs, sizeProd]
  | cons d ds ih =>
      obtain ⟨lo, hi⟩ := d
      have h1 := h (lo, hi) (by simp)
      have ih2 := ih fun p hp => h p (by simp [hp])
      simp only [highs, List.map_cons, rankC, sizeProd, List.prod_cons,
        List.map_cons] at ih2 ⊢
      rw [ih2]
      ring

/-- The maximal coordinate vector is in the domain. -/
theorem inDomB_highs (dom : List (Int × Int)) (h : ∀ p ∈ dom, p.1 ≤ p.2) :
    inDomB dom (highs dom) = true := by
  induction dom with
  | nil => rfl
  | cons d ds ih =>
      obtain ⟨lo, hi⟩ := d
      have h1 := h (lo, hi) (by simp)
      simp only [highs, List.map_cons, inDomB, Bool.and_eq_true, decide_eq_true_eq]
      exact ⟨⟨h1, le_refl hi⟩, ih fun p hp => h p (by simp [hp])⟩

/-- Stepping past the maximal coordinates resets every dimension but the
last to its lower bound and pushes the last one past its upper bound:
the terminal state callers detect. -/
theorem incCarry_highs (dom : List (Int × Int)) (hne : dom ≠ []) :
    incCarry dom (highs dom)
      = (dom.dropLast.map fun p => p.1) ++ [(dom.getLast hne).2 + 1] := by
  induction dom with
  | nil => exact absurd rfl hne
  | cons d ds ih =>
      obtain ⟨lo, hi⟩ := d
      cases ds with
      | nil => simp [highs, incCarry]
      | cons e es =>
          have hne2 : e :: es ≠ [] := by simp
          have hstep : incCarry ((lo, hi) :: e :: es) (highs ((lo, hi) :: e :: es))
              = lo :: incCarry (e :: es) (highs (e :: es)) := by
            simp only [highs, List.map_cons]
            rw [incCarry, if_pos]
            exact ⟨by omega, by simp⟩
          rw [hstep, ih hne2]
          simp [List.getLast_cons]

/-- Iterating the carry step from the lower bounds: after `k` steps the
coordinates are in the domain with rank `k`. -/
theorem iterate_incCarry (dom : List (Int × Int)) (hne : dom ≠ [])
    (hwf : ∀ p ∈ dom, p.1 ≤ p.2) (k : Nat) (hk : (k : Int) < sizeProd dom) :
    inDomB dom ((incCarry dom)^[k] (lows dom)) = true ∧
    rankC dom ((incCarry dom)^[k] (lows dom)) = k := by
  induction k with
  | zero => simp [inDomB_lows dom hwf, rankC_lows]
  | succ k ih =>
      have hk' : (k : Int) < sizeProd dom := by push_cast at hk ⊢; omega
      obtain ⟨hin, hrank⟩ := ih hk'
      rw [Function.iterate_succ_apply']
      constructor
      · refine inDomB_incCarry dom _ hin ?_
        rw [hrank]
        push_cast at hk
        omega
      · rw [rankC_incCarry dom _ hne hin, hrank]
        push_cast
        ring

/-- After exactly `sizeProd` steps the carry loop reaches the terminal
state: all dimensions but the last at their lower bounds and the last
one just past its upper bound. -/
theorem iterate_incCarry_terminal (dom : List (Int × Int)) (hne : dom ≠ [])
    (hwf : ∀ p ∈ dom, p.1 ≤ p.2) :
    (incCarry dom)^[(sizeProd dom).toNat] (lows dom)
      = (dom.dropLast.map fun p => p.1) ++ [(dom.getLast hne).2 + 1] := by
  have hN : 0 < sizeProd dom :=
    (rankC_bounds dom (lows dom) (inDomB_lows dom hwf)).1
  have hsplit : (sizeProd dom).toNat = ((sizeProd dom).toNat - 1) + 1 := by omega
  rw [hsplit, Function.iterate_succ_apply']
  have hklt : (((sizeProd dom).toNat - 1 : Nat) : Int) < sizeProd dom := by omega
  obtain ⟨hin, hrank⟩ := iterate_incCarry dom hne hwf ((sizeProd dom).toNat - 1) hklt
  have hmax : (incCarry dom)^[(sizeProd dom).toNat - 1] (lows dom) = highs dom := by
    refine rankC_injective dom _ _ hin (inDomB_highs dom hwf) ?_
    rw [hrank, rankC_highs dom hwf]
    omega
  rw [hmax]
  exact incCarry_highs dom hne


/-- The terminal state is outside the domain: its last coordinate exceeds
the last upper bound. -/
theorem inDomB_terminal_false (dom : List (Int × Int)) (hne : dom ≠ []) :
    inDomB dom ((dom.dropLast.map fun p => p.1) ++ [(dom.getLast hne).2 + 1])
      = false := by
  induction dom with
  | nil => exact absurd rfl hne
  | cons d ds ih =>
      obtain ⟨lo, hi⟩ := d
      cases ds with
      | nil =>
          simp [inDomB]
      | cons e es =>
          have hne2 : e :: es ≠ ([] : List (Int × Int)) := by simp
          rw [List.dropLast_cons₂, List.getLast_cons hne2, List.map_cons,
            List.cons_append]
          simp only [inDomB, ih hne2, Bool.and_false]

theorem inDomB_snoc (ds : List (Int × Int)) (cs : List Int) (d : Int × Int)
    (c : Int) (hlen : ds.length = cs.length) :
    inDomB (ds ++ [d]) (cs ++ [c])
      = (inDomB ds cs && (decide (d.1 ≤ c) && decide (c ≤ d.2))) := by
  induction ds generalizing cs with
  | nil =>
      cases cs with
      | nil => simp [inDomB]
      | cons c0 cs => simp at hlen
  | cons d0 ds ih =>
      cases cs with
      | nil => simp at hlen
      | cons c0 cs =>
          simp only [List.length_cons, Nat.succ.injEq] at hlen
          simp only [List.cons_append, inDomB, List.append_eq, ih cs hlen,
            Bool.and_assoc]

theorem inDomB_rev (ds : List (Int × Int)) (cs : List Int)
    (h : inDomB ds cs = true) : inDomB ds.reverse cs.reverse = true := by
  induction ds generalizing cs with
  | nil =>
      cases cs with
      | nil => rfl
      | cons c0 cs => simp [inDomB] at h
  | cons d0 ds ih =>
      cases cs with
      | nil => simp [inDomB] at h
      | cons c0 cs =>
          simp only [inDomB, Bool.and_eq_true, decide_eq_true_eq] at h
          obtain ⟨⟨h1, h2⟩, h3⟩ := h
          have hlen := inDomB_length ds cs h3
          simp only [List.reverse_cons]
          rw [inDomB_snoc ds.reverse cs.reverse d0 c0 (by simp [hlen])]
          simp [ih cs h3, h1, h2]

/-- Flattening the per-dimension pairs and re-pairing is the identity. -/
theorem toPairs_pairsFlat (dom : List (Int × Int)) :
    toPairs (pairsFlat dom) = dom := by
  induction dom with
  | nil => rfl
  | cons d ds ih =>
      simp only [pairsFlat, List.map_cons, List.flatten_cons] at *
      simp [toPairs, ih]

/-- Nodup of the iterate sequence: distinct step counts give distinct
coordinates (their ranks differ). -/
theorem incCarry_nodup (dom : List (Int × Int)) (hne : dom ≠ [])
    (hwf : ∀ p ∈ dom, p.1 ≤ p.2) :
    ((List.range (sizeProd dom).toNat).map
        fun k => (incCarry dom)^[k] (lows dom)).Nodup := by
  refine List.Nodup.map_on ?_ (List.nodup_range _)
  intro i hi j hj hf
  simp only [List.mem_range] at hi hj
  have hN : 0 < sizeProd dom :=
    (rankC_bounds dom (lows dom) (inDomB_lows dom hwf)).1
  have hi' : (i : Int) < sizeProd dom := by omega
  have hj' : (j : Int) < sizeProd dom := by omega
  have h1 := (iterate_incCarry dom hne hwf i hi').2
  have h2 := (iterate_incCarry dom hne hwf j hj').2
  rw [hf, h2] at h1
  exact_mod_cast h1.symm

/-- Coverage: every in-domain coordinate vector appears in the iterate
sequence, at position equal to its rank. -/
theorem incCarry_coverage (dom : List (Int × Int)) (hne : dom ≠ [])
    (hwf : ∀ p ∈ dom, p.1 ≤ p.2) (tc : List Int)
    (htc : inDomB dom tc = true) :
    tc ∈ (List.range (sizeProd dom).toNat).map
      fun k => (incCarry dom)^[k] (lows dom) := by
  obtain ⟨hN, hr0, hrlt⟩ := rankC_bounds dom tc htc
  refine List.mem_map.mpr ⟨(rankC dom tc).toNat, ?_, ?_⟩
  · simp only [List.mem_range]
    omega
  · have hk : ((rankC dom tc).toNat : Int) < sizeProd dom := by omega
    obtain ⟨hin, hrank⟩ := iterate_incCarry dom hne hwf (rankC dom tc).toNat hk
    refine rankC_injective dom _ tc hin htc ?_
    rw [hrank]
    omega

/-- Iterating the row-major step (carry on reversed lists) is the reverse
of iterating the carry step on the reversed start. -/
theorem iterate_rev (d : List (Int × Int)) (k : Nat) (x : List Int) :
    (fun tc => (incCarry d tc.reverse).reverse)^[k] x
      = ((incCarry d)^[k] x.reverse).reverse := by
  induction k generalizing x with
  | zero => simp
  | succ k ih =>
      rw [Function.iterate_succ_apply, Function.iterate_succ_apply, ih]
      simp

theorem sizeProd_reverse (dom : List (Int × Int)) :
    sizeProd dom.reverse = sizeProd dom := by
  simp [sizeProd, List.map_reverse, List.prod_reverse]

theorem lows_reverse (dom : List (Int × Int)) :
    (lows dom).reverse = lows dom.reverse := by
  simp [lows, List.map_reverse]

/-- C4: for any schema with row-major or column-major tile order and any
nonempty tile domain with per-dimension bounds lo ≤ hi, iterating
get_next_tile_coords from the all-lower-bounds vector stays in the domain
for the first sizeProd-many states, visits pairwise distinct states, covers
every in-domain coordinate vector, and after exactly sizeProd steps lands
outside the domain — with the most significant dimension (the first for
row-major, the last for column-major) one past its upper bound and all
other dimensions at their lower bounds; in particular, on schema S1's 2×2
tile grid with row-major tile order the successive states after (0,0) are
(0,1), (1,0), (1,1) and then the terminal (2,0). -/
theorem c4_next_tile_coords_traversal (s : ArraySchema) (dom : List (Int × Int))
    (hne : dom ≠ []) (hwf : ∀ p ∈ dom, p.1 ≤ p.2)
    (horder : s.tileOrder = toRowMajor ∨ s.tileOrder = toColMajor) :
    (∀ k, k < (sizeProd dom).toNat →
        inDomB dom
          ((fun tc => s.getNextTileCoords (pairsFlat dom) tc)^[k] (lows dom))
          = true) ∧
    ((List.range (sizeProd dom).toNat).map
        fun k =>
          (fun tc => s.getNextTileCoords (pairsFlat dom) tc)^[k]
            (lows dom)).Nodup ∧
    (∀ tc, inDomB dom tc = true →
        tc ∈ (List.range (sizeProd dom).toNat).map
          fun k =>
            (fun tc => s.getNextTileCoords (pairsFlat dom) tc)^[k]
              (lows dom)) ∧
    inDomB dom
        ((fun tc => s.getNextTileCoords (pairsFlat dom) tc)^[(sizeProd dom).toNat]
          (lows dom)) = false ∧
    (s.tileOrder = toRowMajor →
        (fun tc => s.getNextTileCoords (pairsFlat dom) tc)^[(sizeProd dom).toNat]
            (lows dom)
          = ((dom.head hne).2 + 1) :: (dom.tail.map fun p => p.1)) ∧
    (s.tileOrder = toColMajor →
        (fun tc => s.getNextTileCoords (pairsFlat dom) tc)^[(sizeProd dom).toNat]
            (lows dom)
          = (dom.dropLast.map fun p => p.1) ++ [(dom.getLast hne).2 + 1]) ∧
    (s1.getNextTileCoords [0, 1, 0, 1] [0, 0] = [0, 1] ∧
     s1.getNextTileCoords [0, 1, 0, 1] [0, 1] = [1, 0] ∧
     s1.getNextTileCoords [0, 1, 0, 1] [1, 0] = [1, 1] ∧
     s1.getNextTileCoords [0, 1, 0, 1] [1, 1] = [2, 0]) := by
  rcases horder with hro | hco
  · -- row-major tile order
    have hstep : (fun tc => s.getNextTileCoords (pairsFlat dom) tc)
        = fun tc => (incCarry dom.reverse tc.reverse).reverse := by
      funext tc
      simp [ArraySchema.getNextTileCoords, hro, nextTileCoordsRowAux,
        toPairs_pairsFlat]
    rw [hstep]
    have hne' : dom.reverse ≠ [] := by simpa using hne
    have hwf' : ∀ p ∈ dom.reverse, p.1 ≤ p.2 :=
      fun p hp => hwf p (List.mem_reverse.mp hp)
    have hsz : sizeProd dom.reverse = sizeProd dom := sizeProd_reverse dom
    have hN' : 0 < sizeProd dom.reverse :=
      (rankC_bounds dom.reverse (lows dom.reverse)
        (inDomB_lows dom.reverse hwf')).1
    have hiter : ∀ k,
        (fun tc => (incCarry dom.reverse tc.reverse).reverse)^[k] (lows dom)
          = ((incCarry dom.reverse)^[k] (lows dom.reverse)).reverse := by
      intro k
      rw [iterate_rev, lows_reverse]
    refine ⟨?_, ?_, ?_, ?_, ?_, ?_, by decide, by decide, by decide, by decide⟩
    · intro k hk
      rw [hiter k]
      have hb : (k : Int) < sizeProd dom.reverse := by
        rw [hsz]; omega
      have hin := (iterate_incCarry dom.reverse hne' hwf' k hb).1
      simpa using inDomB_rev dom.reverse _ hin
    · have hfun : (fun k =>
          (fun tc => (incCarry dom.reverse tc.reverse).reverse)^[k] (lows dom))
          = fun k =>
              ((incCarry dom.reverse)^[k] (lows dom.reverse)).reverse :=
        funext hiter
      rw [hfun, ← hsz]
      have h1 := (incCarry_nodup dom.reverse hne' hwf').map
        List.reverse_injective
      rw [List.map_map] at h1
      simpa [Function.comp] using h1
    · intro tc htc
      have htc' : inDomB dom.reverse tc.reverse = true := inDomB_rev dom tc htc
      have hmem := incCarry_coverage dom.reverse hne' hwf' tc.reverse htc'
      obtain ⟨k, hk, he⟩ := List.mem_map.mp hmem
      refine List.mem_map.mpr ⟨k, ?_, ?_⟩
      · rw [hsz] at hk
        exact hk
      · rw [hiter k, he]
        exact List.reverse_reverse tc
    · rw [hiter, ← hsz, iterate_incCarry_terminal dom.reverse hne' hwf']
      have h3 := inDomB_terminal_false dom.reverse hne'
      cases h2 : inDomB dom
          (((dom.reverse.dropLast.map fun p => p.1)
            ++ [(dom.reverse.getLast hne').2 + 1]).reverse) with
      | false => rfl
      | true =>
          have h4 := inDomB_rev dom _ h2
          rw [List.reverse_reverse, h3] at h4
          exact h4.symm
    · intro _
      rw [hiter, ← hsz, iterate_incCarry_terminal dom.reverse hne' hwf']
      cases dom with
      | nil => exact absurd rfl hne
      | cons d ds =>
          simp [List.reverse_cons, List.dropLast_concat, List.getLast_append,
            List.reverse_append, List.map_reverse]
    · intro hco2
      rw [hro] at hco2
      exact absurd hco2 (by decide)
  · -- column-major tile order
    have hstep : (fun tc => s.getNextTileCoords (pairsFlat dom) tc)
        = incCarry dom := by
      funext tc
      simp [ArraySchema.getNextTileCoords, hco, nextTileCoordsColAux,
        toPairs_pairsFlat, toRowMajor, toColMajor]
    rw [hstep]
    have hN : 0 < sizeProd dom :=
      (rankC_bounds dom (lows dom) (inDomB_lows dom hwf)).1
    refine ⟨?_, incCarry_nodup dom hne hwf, incCarry_coverage dom hne hwf,
      ?_, ?_, ?_, by decide, by decide, by decide, by decide⟩
    · intro k hk
      exact (iterate_incCarry dom hne hwf k (by omega)).1
    · rw [iterate_incCarry_terminal dom hne hwf]
      exact inDomB_terminal_false dom hne
    · intro hro2
      rw [hco] at hro2
      exact absurd hro2 (by decide)
    · intro _
      exact iterate_incCarry_terminal dom hne hwf

theorem c4_next_tile_coords_traversal_witness :
    inDomB [((0 : Int), (1 : Int)), ((0 : Int), (1 : Int))]
        ((fun tc => s1.getNextTileCoords
            (pairsFlat [((0 : Int), (1 : Int)), ((0 : Int), (1 : Int))]) tc)^[
          (sizeProd [((0 : Int), (1 : Int)), ((0 : Int), (1 : Int))]).toNat]
          (lows [((0 : Int), (1 : Int)), ((0 : Int), (1 : Int))])) = false ∧
    s1.getNextTileCoords [0, 1, 0, 1] [1, 1] = [2, 0] :=
  ⟨(c4_next_tile_coords_traversal s1
      [((0 : Int), (1 : Int)), ((0 : Int), (1 : Int))]
      (by decide) (by decide) (Or.inl (by decide))).2.2.2.1,
   (c4_next_tile_coords_traversal s1
      [((0 : Int), (1 : Int)), ((0 : Int), (1 : Int))]
      (by decide) (by decide) (Or.inl (by decide))).2.2.2.2.2.2.2.2.2⟩

/-- `set_cell_order` on success: the result is Hilbert only if tile
extents are absent, and the tile order and tile extents are unchanged. -/
theorem setCellOrder_hilbert (s : ArraySchema) (o : Option String)
    (s' : ArraySchema) (h : setCellOrder s o = some s') :
    (s'.cellOrder = coHilbert → s'.tileExtents = none) ∧
    s'.tileOrder = s.tileOrder ∧ s'.tileExtents = s.tileExtents := by
  cases o with
  | none =>
      simp only [setCellOrder, Option.some.injEq] at h
      subst h
      refine ⟨?_, rfl, rfl⟩
      intro habs
      simp [defaultCellOrderCode, coRowMajor, coHilbert] at habs
  | some str =>
      simp only [setCellOrder] at h
      split_ifs at h with h1 h2 h3 h4
      · injection h with h; subst h
        refine ⟨?_, rfl, rfl⟩
        intro habs
        simp [coRowMajor, coHilbert] at habs
      · injection h with h; subst h
        refine ⟨?_, rfl, rfl⟩
        intro habs
        simp [coColMajor, coHilbert] at habs
      · injection h with h; subst h
        refine ⟨fun _ => ?_, rfl, rfl⟩
        simpa using h4

/-- `set_tile_order` on success: mirror of `setCellOrder_hilbert`. -/
theorem setTileOrder_hilbert (s : ArraySchema) (o : Option String)
    (s' : ArraySchema) (h : setTileOrder s o = some s') :
    (s'.tileOrder = toHilbert → s'.tileExtents = none) ∧
    s'.cellOrder = s.cellOrder ∧ s'.tileExtents = s.tileExtents := by
  cases o with
  | none =>
      simp only [setTileOrder, Option.some.injEq] at h
      subst h
      refine ⟨?_, rfl, rfl⟩
      intro habs
      simp [defaultTileOrderCode, toRowMajor, toHilbert] at habs
  | some str =>
      simp only [setTileOrder] at h
      split_ifs at h with h1 h2 h3 h4
      · injection h with h; subst h
        refine ⟨?_, rfl, rfl⟩
        intro habs
        simp [toRowMajor, toHilbert] at habs
      · injection h with h; subst h
        refine ⟨?_, rfl, rfl⟩
        intro habs
        simp [toColMajor, toHilbert] at habs
      · injection h with h; subst h
        refine ⟨fun _ => ?_, rfl, rfl⟩
        simpa using h4

/-- `set_domain` never touches the tile extents or the two orders. -/
theorem setDomain_pres (s : ArraySchema) (o : Option (List Nat))
    (s' : ArraySchema) (h : setDomain s o = some s') :
    s'.tileExtents = s.tileExtents ∧ s'.cellOrder = s.cellOrder ∧
    s'.tileOrder = s.tileOrder := by
  cases o with
  | none => simp [setDomain] at h
  | some dBytes =>
      simp only [setDomain] at h
      by_cases hlen : dBytes.length = (2 * s.coordsSize).toNat
      · rw [if_pos hlen] at h
        rcases hct : s.coordsType with _ | t <;> rw [hct] at h
        · exact Option.noConfusion h
        · cases t with
          | tChar => exact Option.noConfusion h
          | tInt32 =>
              have h' : (if domainSorted (decodeScalars 4 dBytes) = true
                  then (some { s with domain := dBytes } : Option ArraySchema)
                  else none) = some s' := h
              split_ifs at h' with hd
              injection h' with h'
              subst h'
              exact ⟨rfl, rfl, rfl⟩
          | tInt64 =>
              have h' : (if domainSorted (decodeScalars 8 dBytes) = true
                  then (some { s with domain := dBytes } : Option ArraySchema)
                  else none) = some s' := h
              split_ifs at h' with hd
              injection h' with h'
              subst h'
              exact ⟨rfl, rfl, rfl⟩
          | tFloat32 =>
              have h' : (some { s with domain := dBytes }
                  : Option ArraySchema) = some s' := h
              injection h' with h'
              subst h'
              exact ⟨rfl, rfl, rfl⟩
          | tFloat64 =>
              have h' : (some { s with domain := dBytes }
                  : Option ArraySchema) = some s' := h
              injection h' with h'
              subst h'
              exact ⟨rfl, rfl, rfl⟩
      · rw [if_neg hlen] at h
        exact Option.noConfusion h

/-- The derived-field epilogue never touches the tile extents or the two
orders. -/
theorem computeDerived_pres (s s' : ArraySchema)
    (h : computeDerived s = some s') :
    s'.tileExtents = s.tileExtents ∧ s'.cellOrder = s.cellOrder ∧
    s'.tileOrder = s.tileOrder := by
  simp only [computeDerived, Option.bind_eq_some, Option.some.injEq,
    bind, Option.bind] at h
  rcases hc : computeCellNumPerTileFresh s.dense s.coordsType s.tileExtents
      s.capacity with _ | cnpt
  · rw [hc] at h
    simp at h
  · rw [hc] at h
    simp only [Option.some.injEq] at h
    subst h
    exact ⟨rfl, rfl, rfl⟩

/-- The Hilbert-exclusivity invariant of any schema `init` accepts. -/
theorem init_hilbert_inv (c : ArraySchemaC) (s : ArraySchema)
    (h : init c = some s) :
    (s.cellOrder = coHilbert → s.tileExtents = none) ∧
    (s.tileOrder = toHilbert → s.tileExtents = none) := by
  have hinit :
      init c =
        Option.bind (setAttributes (setArrayName emptySchema c.arrayName)
            c.attributes c.attributeNum) (fun sa =>
          Option.bind (setDimensions (setCapacity sa c.capacity)
              c.dimensions c.dimNum) (fun sb =>
            Option.bind (setCompression sb c.compression) (fun sc =>
              Option.bind (setTypes (setDense (setConsolidationStep sc
                  c.consolidationStep) c.dense) c.types) (fun sd =>
                Option.bind (setTileExtents sd c.tileExtents) (fun se =>
                  Option.bind (setCellOrder se c.cellOrder) (fun sf =>
                    Option.bind (setTileOrder sf c.tileOrder) (fun sg =>
                      Option.bind (setDomain sg c.domain) (fun su =>
                        computeDerived su)))))))) := rfl
  rw [hinit] at h
  simp only [Option.bind_eq_some] at h
  obtain ⟨s2, h2, s4, h4, s5, h5, s8, h8, s9, h9, s10, h10, s11, h11, s12,
    h12, hcd⟩ := h
  obtain ⟨hA, hto10, hte10⟩ := setCellOrder_hilbert _ _ _ h10
  obtain ⟨hB, hco11, hte11⟩ := setTileOrder_hilbert _ _ _ h11
  obtain ⟨hteD, hcoD, htoD⟩ := setDomain_pres _ _ _ h12
  obtain ⟨hteC, hcoC, htoC⟩ := computeDerived_pres _ _ hcd
  constructor
  · intro hcell
    rw [hteC, hteD, hte11]
    apply hA
    rw [← hco11, ← hcoD, ← hcoC]
    exact hcell
  · intro htile
    rw [hteC, hteD]
    apply hB
    rw [← htoD, ← htoC]
    exact htile

/-- C9: every schema accepted by `init` satisfies Hilbert exclusivity —
if the cell order or the tile order is Hilbert then the tile extents are
null — and, for any schema state whatsoever, setting the cell order or
the tile order to "hilbert" while tile extents are non-null is
rejected. -/
theorem c9_hilbert_exclusivity (c : ArraySchemaC) (s : ArraySchema)
    (h : init c = some s) :
    ((s.cellOrder = coHilbert → s.tileExtents = none) ∧
     (s.tileOrder = toHilbert → s.tileExtents = none)) ∧
    (∀ s' : ArraySchema, s'.tileExtents ≠ none →
        setCellOrder s' (some "hilbert") = none ∧
        setTileOrder s' (some "hilbert") = none) := by
  refine ⟨init_hilbert_inv c s h, ?_⟩
  intro s' hx
  constructor
  · simp [setCellOrder, hx]
  · simp [setTileOrder, hx]

theorem c9_hilbert_exclusivity_witness :
    init s4Input = some s4 ∧ s4.cellOrder = coHilbert ∧
    s4.tileExtents = none :=
  ⟨by decide, by decide,
   ((c9_hilbert_exclusivity s4Input s4 (by decide)).1.1 (by decide))⟩

/-- C5 counterexample: the claim says deserialize rejects any buffer
holding an unknown stable code, but `ArraySchema::deserialize` performs
no validation of enum bytes — replacing the final compressor byte of a
valid serialized schema with the undocumented code 99 still deserializes
successfully (into a schema carrying the raw code 99). -/
theorem c5_format_error_counterexample :
    deserialize ((serialize s1).dropLast ++ [99])
      = some { s1 with compression := [0, 99] } ∧
    99 ≠ cmpNone ∧ 99 ≠ cmpGzip := by
  decide

set_option maxRecDepth 4000 in
/-- C5 amended: deserialize has no FormatError channel at all; the only
failure mode it exhibits is on truncated input, where the length-guarded
reads (the C++ code's assertions / out-of-bounds accesses) fail — every
proper prefix of the serialization of schema S1 is rejected — while
unknown stable codes are accepted without any check. -/
theorem c5_truncation_amended :
    ((List.range (serialize s1).length).all
      fun k => (deserialize ((serialize s1).take k)).isNone) = true := by
  decide
